import Mathlib

/-!
# Verification of the toolz cancellation registry and streaming pipelines

Shallow embedding of `src-tauri/src/operations.rs` (operation registry,
cancellation, tombstones, lazy sweep) and `src-tauri/src/remove.rs` (pattern
matchers, streaming search pipeline, batch delete pipeline).

Modelling conventions, used consistently below:
* `Instant` timestamps and `Duration`s are natural numbers (seconds);
  `now.duration_since(created)` is truncated subtraction `now - created`.
* The `DashMap` registry is an association list `List (String × OperationEntry)`
  mutated through `rlookup` / `rinsert` / `rremove`, mirroring get / insert /
  remove on the map.  The shared `Arc<AtomicBool>` cancellation flag of an
  `Active` entry is modelled by the `Bool` stored in the entry.
* Strings that undergo character-level work (file names, patterns) are
  `List Char`; `str::to_lowercase` is modelled character-wise by
  `Char.toLower` (multi-character Unicode expansions are not modelled), and
  positions count characters where Rust counts bytes.
* Filesystem paths are lists of components (`List (List Char)`); the
  directory-separator count of a rendered path is `components - 1`.
* The monotone (false → true) atomic cancellation flag is modelled by
  `cancelAt : Option Nat` together with a poll counter threaded through the
  pipeline: the n-th `load` of the flag returns `true` iff `cancelAt = some c`
  with `c ≤ n`.  Every `load` in the Rust code performs exactly one poll.
* The Tauri `Channel` is a sink `Nat → Bool` giving the success of the n-th
  `send`; the event traces below record every *attempted* send, in order.
* The external `regex` crate is an oracle
  `rcompile : List Char → Except String (List Char → List (Nat × Nat))`
  modelling `Regex::new` followed by `find_iter` (the crate is outside this
  repository; the pipeline only ever calls it with the pattern string,
  prefixed by `(?i)` in the case-insensitive mode, exactly as the source
  does).
-/

deriving instance DecidableEq for Except

namespace Toolz

/-! ## Registry model (`operations.rs`) -/

/-- `const SWEEP_THRESHOLD: usize = 100`. -/
def SWEEP_THRESHOLD : Nat := 100

/-- `const TOMBSTONE_MAX_AGE: Duration = Duration::from_secs(60)`, in seconds. -/
def TOMBSTONE_MAX_AGE : Nat := 60

/-- `struct CancelledError` from `operations.rs`. -/
inductive CancelledError : Type where
  | mk : CancelledError
deriving DecidableEq, Repr

/-- `enum OperationEntry { Active(Arc<AtomicBool>), Tombstone(Instant) }`. -/
inductive OperationEntry : Type where
  | active (flag : Bool) : OperationEntry
  | tombstone (createdAt : Nat) : OperationEntry
deriving DecidableEq, Repr

/-- The `DashMap<String, OperationEntry>` of `OperationRegistry`, as an
association list. -/
abbrev Registry := List (String × OperationEntry)

/-- `entries.get(id)` — first entry stored under the key. -/
def rlookup (r : Registry) (id : String) : Option OperationEntry :=
  match r with
  | [] => none
  | (k, e) :: rest => if k = id then some e else rlookup rest id

/-- `entries.remove(id)`. -/
def rremove (r : Registry) (id : String) : Registry :=
  r.filter (fun p => p.1 ≠ id)

/-- `entries.insert(id, e)` — replaces any entry stored under the key. -/
def rinsert (r : Registry) (id : String) (e : OperationEntry) : Registry :=
  (id, e) :: rremove r id

/-- `OperationRegistry::sweep_old_tombstones`: retain every `Active` entry and
every `Tombstone` with `now.duration_since(created_at) < TOMBSTONE_MAX_AGE`. -/
def sweep_old_tombstones (now : Nat) (r : Registry) : Registry :=
  r.filter (fun p =>
    match p.2 with
    | .active _ => true
    | .tombstone createdAt => now - createdAt < TOMBSTONE_MAX_AGE)

/-- `OperationRegistry::try_register`.  Returns the `Result` (the `Ok` payload
is the initial value of the freshly created cancellation flag; the `Guard` is
the obligation to later `rremove` the id, see `guard_drop`) together with the
updated registry. -/
def try_register (r : Registry) (id : String) (now : Nat) :
    Except CancelledError Bool × Registry :=
  match rlookup r id with
  | some (.tombstone _) => (.error .mk, rremove r id)
  | _ =>
    let r' := if r.length > SWEEP_THRESHOLD then sweep_old_tombstones now r else r
    (.ok false, rinsert r' id (.active false))

/-- `flag.store(true, SeqCst)` on the shared flag of the entry keyed `id`. -/
def setFlagTrue (id : String) (r : Registry) : Registry :=
  r.map (fun p => if p.1 = id then (p.1, OperationEntry.active true) else p)

/-- `OperationRegistry::cancel`. -/
def cancel (r : Registry) (id : String) (now : Nat) : Registry :=
  match rlookup r id with
  | some (.active _) => setFlagTrue id r
  | some (.tombstone _) => r
  | none => rinsert r id (.tombstone now)

/-- `OperationGuard::drop`: unconditionally remove the guarded id. -/
def guard_drop (r : Registry) (id : String) : Registry :=
  rremove r id

/-! ## Pattern matchers (`remove.rs`, pure functions) -/

/-- A Rust `String` undergoing character-level work. -/
abbrev FName := List Char

/-- A filesystem path, as its list of components. -/
abbrev FPath := List FName

/-- Character-wise model of `str::to_lowercase`. -/
def toLowerName (s : FName) : FName := s.map Char.toLower

/-- `pat` occurs at the start of `hay` (`str::starts_with`). -/
def isPrefixL : FName → FName → Bool
  | [], _ => true
  | _ :: _, [] => false
  | a :: as, b :: bs => if a = b then isPrefixL as bs else false

/-- `haystack.find(needle)` on strings: index of the first occurrence. -/
def findSub (hay pat : FName) : Option Nat :=
  if isPrefixL pat hay then some 0
  else
    match hay with
    | [] => none
    | _ :: t => (findSub t pat).map (· + 1)

/-- The `while let Some(pos) = search_name[start..].find(&search_pattern)` loop
of `match_simple`: pushes `(abs_pos, abs_pos + pattern.len())` and resumes at
`abs_pos + 1`.  `fuel` bounds the recursion; `hay.length + 1` is enough fuel
for every non-empty pattern (on the empty pattern the Rust loop slices out of
bounds and panics, which the claims do not exercise). -/
def msLoop (pat : FName) (plen : Nat) : Nat → FName → Nat → List (Nat × Nat)
  | 0, _, _ => []
  | fuel + 1, s, offset =>
    match findSub s pat with
    | none => []
    | some pos =>
        (offset + pos, offset + pos + plen) ::
          msLoop pat plen fuel (s.drop (pos + 1)) (offset + pos + 1)

/-- `match_simple` from `remove.rs`. -/
def match_simple (name pat : FName) (caseSensitive : Bool) :
    Option (List (Nat × Nat)) :=
  let searchName := if caseSensitive then name else toLowerName name
  let searchPat := if caseSensitive then pat else toLowerName pat
  let ms := msLoop searchPat pat.length (searchName.length + 1) searchName 0
  if ms.isEmpty then none else some ms

/-- `str::trim` (drops leading and trailing whitespace). -/
def trimName (s : FName) : FName :=
  ((s.dropWhile Char.isWhitespace).reverse.dropWhile Char.isWhitespace).reverse

/-- `pat` occurs at the end (`str::ends_with`). -/
def isSuffixL (pat s : FName) : Bool := isPrefixL pat.reverse s.reverse

/-- The `for ext in exts` loop of `match_extension`. -/
def matchExtLoop (name nameCheck : FName) (caseSensitive : Bool) :
    List FName → Option (List (Nat × Nat))
  | [] => none
  | ext :: rest =>
    let extPat := match ext with
      | '.' :: _ => ext
      | _ => '.' :: ext
    let extCheck := if caseSensitive then extPat else toLowerName extPat
    if isSuffixL extCheck nameCheck then
      some [(name.length - extPat.length, name.length)]
    else matchExtLoop name nameCheck caseSensitive rest

/-- `match_extension` from `remove.rs`. -/
def match_extension (name exts : FName) (caseSensitive : Bool) :
    Option (List (Nat × Nat)) :=
  let extList := (exts.splitOn ',').map trimName
  let nameCheck := if caseSensitive then name else toLowerName name
  matchExtLoop name nameCheck caseSensitive extList

/-- The model of the external `regex` crate: `Regex::new` composed with
`find_iter`, as a pure oracle. -/
abbrev RegexOracle := FName → Except String (FName → List (Nat × Nat))

/-- The pattern string handed to `Regex::new`: prefixed by `(?i)` in the
case-insensitive mode. -/
def compileArg (pat : FName) (caseSensitive : Bool) : FName :=
  if caseSensitive then pat else ("(?i)".toList ++ pat)

/-- `match_regex` from `remove.rs` (compiles on every call). -/
def match_regex (rc : RegexOracle) (name pat : FName) (caseSensitive : Bool) :
    Except String (Option (List (Nat × Nat))) :=
  match rc (compileArg pat caseSensitive) with
  | .error e => .error e
  | .ok r =>
      let ms := r name
      .ok (if ms.isEmpty then none else some ms)

/-- Two half-open ranges overlap. -/
def rangesOverlap (r₁ r₂ : Nat × Nat) : Prop := r₁.1 < r₂.2 ∧ r₂.1 < r₁.2

/-- `pat` occurs at position `i` of `s`. -/
def occursAt (s pat : FName) (i : Nat) : Prop := isPrefixL pat (s.drop i) = true

/-! ## Search pipeline (`remove.rs`) -/

/-- `enum PatternType`. -/
inductive PatternType : Type where
  | simple | extension | regex
deriving DecidableEq, Repr

/-- A `walkdir::DirEntry` together with what `fs::metadata` would report for
it (`metadataOk = false` models a failing `fs::metadata` call). -/
structure FsEntry where
  path : FPath
  size : Nat
  isDirectory : Bool
  metadataOk : Bool
deriving DecidableEq, Repr

/-- `struct FileMatchResult`. -/
structure FileMatchResult where
  path : FPath
  name : FName
  match_ranges : List (Nat × Nat)
  size : Nat
  is_directory : Bool
deriving DecidableEq, Repr

/-- `enum SearchProgress`. -/
inductive SearchProgress : Type where
  | started (basePath : FPath)
  | scanning (currentDir : FPath) (filesFound : Nat)
  | matching (totalFiles : Nat)
  | completed (matchesFound : Nat)
  | cancelled
deriving DecidableEq, Repr

/-- `enum DeleteProgress`. -/
inductive DeleteProgress : Type where
  | started (totalFiles : Nat)
  | progress (current total : Nat) (currentPath : FPath)
  | completed (successful failed : Nat)
  | cancelled
deriving DecidableEq, Repr

/-- Terminal `SearchProgress` variants. -/
def searchTerminal : SearchProgress → Bool
  | .completed _ => true
  | .cancelled => true
  | _ => false

/-- Terminal `DeleteProgress` variants. -/
def deleteTerminal : DeleteProgress → Bool
  | .completed _ _ => true
  | .cancelled => true
  | _ => false

/-- `Path::file_name` (last component). -/
def fileName (p : FPath) : Option FName := p.getLast?

/-- `Path::parent`. -/
def parentOf (p : FPath) : Option FPath :=
  match p with
  | [] => none
  | _ :: _ => some p.dropLast

/-- One `load` of the monotone cancellation flag, at poll counter `p`. -/
def flagRead (cancelAt : Option Nat) (p : Nat) : Bool :=
  match cancelAt with
  | none => false
  | some c => c ≤ p

/-- The Tauri channel: success of the n-th `send`. -/
abbrev Sink := Nat → Bool

/-- A channel that never disconnects. -/
def sinkLive : Sink := fun _ => true

/-- Per-entry match dispatch shared by the search variants. -/
def matchRangesFor (rc : RegexOracle) (pat : FName) (pt : PatternType)
    (caseSensitive : Bool) (nm : FName) :
    Except String (Option (List (Nat × Nat))) :=
  match pt with
  | .simple => .ok (match_simple nm pat caseSensitive)
  | .extension => .ok (match_extension nm pat caseSensitive)
  | .regex => match_regex rc nm pat caseSensitive

/-- The `for entry in walker` loop of the synchronous
`search_files_by_pattern` (the walker's entry stream is the input list). -/
def sfbpLoop (rc : RegexOracle) (basePath : FPath) (pat : FName)
    (pt : PatternType) (caseSensitive : Bool) :
    List FsEntry → Except String (List FileMatchResult)
  | [] => .ok []
  | e :: rest =>
    if e.path = basePath then sfbpLoop rc basePath pat pt caseSensitive rest
    else
      match fileName e.path with
      | none => sfbpLoop rc basePath pat pt caseSensitive rest
      | some nm =>
        match matchRangesFor rc pat pt caseSensitive nm with
        | .error err => .error err
        | .ok none => sfbpLoop rc basePath pat pt caseSensitive rest
        | .ok (some ranges) =>
          if e.metadataOk then
            match sfbpLoop rc basePath pat pt caseSensitive rest with
            | .error err => .error err
            | .ok tail =>
                .ok (⟨e.path, nm, ranges, e.size, e.isDirectory⟩ :: tail)
          else .error "metadata error"

/-- `search_files_by_pattern` (synchronous command). -/
def search_files_by_pattern (rc : RegexOracle) (basePath : FPath)
    (entries : List FsEntry) (pat : FName) (pt : PatternType)
    (caseSensitive : Bool) : Except String (List FileMatchResult) :=
  if (trimName pat).isEmpty then .error "Pattern cannot be empty"
  else sfbpLoop rc basePath pat pt caseSensitive entries

/-- Outcome of the phase-1 scan loop of `search_files_blocking`: either an
early `return Ok(vec![])` (cancellation or dead channel) or the collected
entries. -/
inductive ScanOut : Type where
  | abort (trace : List SearchProgress) (polls : Nat)
  | done (files : List FsEntry) (trace : List SearchProgress) (polls sends : Nat)
deriving DecidableEq, Repr

/-- Phase 1 of `search_files_blocking`: the `for entry in walker` loop.
`acc` is `all_files`, `lastDir` is `last_progress_dir` (initially the empty
string, i.e. `[]`), `p`/`s` the poll and send counters, `tr` the events
attempted so far. -/
def scanLoop (cancelAt : Option Nat) (sink : Sink) (basePath : FPath) :
    List FsEntry → List FsEntry → FPath → Nat → Nat → List SearchProgress →
    ScanOut
  | [], acc, _, p, s, tr => .done acc tr p s
  | e :: rest, acc, lastDir, p, s, tr =>
    if flagRead cancelAt p then .abort (tr ++ [.cancelled]) (p + 1)
    else if e.path = basePath then
      scanLoop cancelAt sink basePath rest acc lastDir (p + 1) s tr
    else if acc.length % 100 = 0 then
      match parentOf e.path with
      | some dir =>
        if dir ≠ lastDir then
          if sink s then
            scanLoop cancelAt sink basePath rest (acc ++ [e]) dir (p + 1)
              (s + 1) (tr ++ [.scanning dir acc.length])
          else .abort (tr ++ [.scanning dir acc.length]) (p + 1)
        else
          scanLoop cancelAt sink basePath rest (acc ++ [e]) lastDir (p + 1) s tr
      | none =>
        scanLoop cancelAt sink basePath rest (acc ++ [e]) lastDir (p + 1) s tr
    else scanLoop cancelAt sink basePath rest (acc ++ [e]) lastDir (p + 1) s tr

/-- The body of the `par_iter().filter_map(...)` closure of phase 2 (minus the
cancellation poll). -/
def parMatchBody (pat : FName) (pt : PatternType) (caseSensitive : Bool)
    (creg : Option (FName → List (Nat × Nat))) (e : FsEntry) :
    Option FileMatchResult :=
  match fileName e.path with
  | none => none
  | some nm =>
    let ranges? : Option (List (Nat × Nat)) :=
      match pt with
      | .simple => match_simple nm pat caseSensitive
      | .extension => match_extension nm pat caseSensitive
      | .regex =>
        match creg with
        | some r =>
            let ms := r nm
            if ms.isEmpty then none else some ms
        | none => none
    match ranges? with
    | none => none
    | some ranges =>
      if e.metadataOk then some ⟨e.path, nm, ranges, e.size, e.isDirectory⟩
      else none

/-- Phase 2 of `search_files_blocking`: the data-parallel pass, modelled in
the sequential order; each item performs one poll of the shared flag and
contributes nothing once the flag is set. -/
def parallelPhase (cancelAt : Option Nat) (pat : FName) (pt : PatternType)
    (caseSensitive : Bool) (creg : Option (FName → List (Nat × Nat))) :
    List FsEntry → Nat → List FileMatchResult × Nat
  | [], p => ([], p)
  | e :: rest, p =>
    let head? :=
      if flagRead cancelAt p then none
      else parMatchBody pat pt caseSensitive creg e
    let tail := parallelPhase cancelAt pat pt caseSensitive creg rest (p + 1)
    (match head? with
     | some x => x :: tail.1
     | none => tail.1, tail.2)

/-- The observable outcome of one run of `search_files_blocking`: the returned
`Result`, the attempted event trace, and the number of flag polls. -/
structure SearchRun where
  res : Except String (List FileMatchResult)
  trace : List SearchProgress
  polls : Nat
deriving DecidableEq, Repr

/-- `search_files_blocking` from `remove.rs`. -/
def search_files_blocking (rc : RegexOracle) (basePath : FPath)
    (entries : List FsEntry) (pat : FName) (pt : PatternType)
    (caseSensitive : Bool) (cancelAt : Option Nat) (sink : Sink) : SearchRun :=
  if sink 0 = false then ⟨.ok [], [.started basePath], 0⟩
  else
    match scanLoop cancelAt sink basePath entries [] [] 0 1
        [.started basePath] with
    | .abort tr p => ⟨.ok [], tr, p⟩
    | .done files tr p s =>
      if flagRead cancelAt p then ⟨.ok [], tr ++ [.cancelled], p + 1⟩
      else if sink s = false then ⟨.ok [], tr ++ [.matching files.length], p + 1⟩
      else
        match (if pt = .regex then (rc (compileArg pat caseSensitive)).map some
               else .ok none) with
        | .error e => ⟨.error e, tr ++ [.matching files.length], p + 1⟩
        | .ok creg =>
          let pr := parallelPhase cancelAt pat pt caseSensitive creg files (p + 1)
          if flagRead cancelAt pr.2 then
            ⟨.ok [], tr ++ [.matching files.length, .cancelled], pr.2 + 1⟩
          else
            ⟨.ok pr.1, tr ++ [.matching files.length, .completed pr.1.length],
              pr.2 + 1⟩

/-- `search_files_with_progress` (the async command): registration against the
registry, the empty-pattern pre-flight check, then the blocking pipeline; the
guard's drop removes the registry entry on every exit path. -/
def search_files_with_progress (reg : Registry) (opId : String) (now : Nat)
    (rc : RegexOracle) (basePath : FPath) (entries : List FsEntry)
    (pat : FName) (pt : PatternType) (caseSensitive : Bool)
    (cancelAt : Option Nat) (sink : Sink) : SearchRun × Registry :=
  match try_register reg opId now with
  | (.error _, reg') => (⟨.ok [], [.cancelled], 0⟩, reg')
  | (.ok _, reg') =>
    if (trimName pat).isEmpty then
      (⟨.error "Pattern cannot be empty", [], 0⟩, guard_drop reg' opId)
    else
      (search_files_blocking rc basePath entries pat pt caseSensitive cancelAt
        sink, guard_drop reg' opId)

/-- The pre-compiled matcher phase 2 works with, when compilation does not
fail: `Some(regex)` for the regex mode, `None` otherwise. -/
def cregOf (rc : RegexOracle) (pat : FName) (pt : PatternType) (cs : Bool) :
    Option (FName → List (Nat × Nat)) :=
  match pt with
  | .regex => (rc (compileArg pat cs)).toOption
  | _ => none

/-- A regex oracle on which every compilation fails (a malformed pattern). -/
def rejectOracle : RegexOracle := fun _ => .error "regex parse error"

/-- A regex oracle that compiles everything to a matcher with no matches. -/
def emptyOracle : RegexOracle := fun _ => .ok (fun _ => [])

/-! ## Delete pipeline (`remove.rs`) -/

/-- The filesystem visible to the delete pipeline: the existing regular files
and the existing directories. -/
structure FS where
  files : List FPath
  dirs : List FPath
deriving DecidableEq, Repr

/-- Component-wise path containment: `d` is `q` or an ancestor of `q`. -/
def withinPath : FPath → FPath → Bool
  | [], _ => true
  | _, [] => false
  | a :: as, b :: bs => if a = b then withinPath as bs else false

/-- `q` is a direct child of directory `d`. -/
def isChildOf (q d : FPath) : Bool :=
  match q with
  | [] => false
  | a :: as => if (a :: as).dropLast = d then true else false

/-- `fs::read_dir(d)` yields no entry. -/
def dirIsEmpty (fs : FS) (d : FPath) : Bool :=
  fs.files.all (fun q => !(isChildOf q d)) && fs.dirs.all (fun q => !(isChildOf q d))

/-- `fs::remove_dir_all`: removes the tree rooted at `d`. -/
def removeDirAll (fs : FS) (d : FPath) : FS :=
  { files := fs.files.filter (fun q => !(withinPath d q))
  , dirs := fs.dirs.filter (fun q => !(withinPath d q)) }

/-- `fs::remove_file`: fails when the path is not an existing file. -/
def removeFileOp (fs : FS) (p : FPath) : Except String FS :=
  if p ∈ fs.files then
    .ok { fs with files := fs.files.filter (fun q => q ≠ p) }
  else .error "No such file or directory"

/-- `fs::remove_dir` on an existing empty directory. -/
def removeDirOp (fs : FS) (d : FPath) : FS :=
  { fs with dirs := fs.dirs.filter (fun q => q ≠ d) }

/-- One deletion attempt of the batch loop:
`if path.is_dir() { fs::remove_dir_all(path) } else { fs::remove_file(path) }`. -/
def deleteOne (fs : FS) (p : FPath) : Except String FS :=
  if p ∈ fs.dirs then .ok (removeDirAll fs p)
  else removeFileOp fs p

/-- `parent_dirs.insert(...)` on the `HashSet`, modelled as a duplicate-free
list in first-insertion order. -/
def insertParent (par : List FPath) (p : FPath) : List FPath :=
  match parentOf p with
  | none => par
  | some d => if d ∈ par then par else par ++ [d]

/-- `dir.matches(MAIN_SEPARATOR).count()` for the rendered path. -/
def sepCount (p : FPath) : Nat := p.length - 1

/-- Stable descending insertion for `sort_by(|a, b| b.count.cmp(&a.count))`. -/
def insertDescBySep (x : FPath) : List FPath → List FPath
  | [] => [x]
  | y :: ys => if sepCount y < sepCount x then x :: y :: ys else y :: insertDescBySep x ys

/-- The `dirs.sort_by(...)` call: stable sort, deepest (most separators)
first. -/
def sortDirsDesc (l : List FPath) : List FPath := l.foldr insertDescBySep []

/-- `struct DeleteResult`. -/
structure DeleteResult where
  successful : List FPath
  failed : List (FPath × String)
  deleted_dirs : List FPath
deriving DecidableEq, Repr

/-- The per-target loop shared by `batch_delete` and (for its accumulators)
`batch_delete_blocking`, without cancellation or progress events: tracks the
parent directory, attempts the deletion, and records the outcome. -/
def processTargets (delEmpty : Bool) :
    List FPath → FS → List FPath → List (FPath × String) → List FPath →
    List FPath × List (FPath × String) × FS × List FPath
  | [], fs, succ, failed, par => (succ, failed, fs, par)
  | f :: rest, fs, succ, failed, par =>
    let par' := if delEmpty then insertParent par f else par
    match deleteOne fs f with
    | .ok fs' => processTargets delEmpty rest fs' (succ ++ [f]) failed par'
    | .error e => processTargets delEmpty rest fs succ (failed ++ [(f, e)]) par'

/-- The `for dir in dirs` cleanup loop without cancellation (as in the
synchronous `batch_delete`): remove a candidate only when it still exists, is
a directory, and is empty, recording it in `deleted_dirs`. -/
def cleanupDirs : List FPath → FS → List FPath → FS × List FPath
  | [], fs, del => (fs, del)
  | d :: rest, fs, del =>
    if (d ∈ fs.files ∨ d ∈ fs.dirs) ∧ d ∈ fs.dirs then
      if dirIsEmpty fs d then cleanupDirs rest (removeDirOp fs d) (del ++ [d])
      else cleanupDirs rest fs del
    else cleanupDirs rest fs del

/-- `batch_delete` (synchronous command); returns the `Result` and the final
filesystem. -/
def batch_delete (files : List FPath) (delEmpty : Bool) (fs : FS) :
    Except String DeleteResult × FS :=
  match processTargets delEmpty files fs [] [] [] with
  | (succ, failed, fs', par) =>
    if delEmpty then
      let c := cleanupDirs (sortDirsDesc par) fs' []
      (.ok ⟨succ, failed, c.2⟩, c.1)
    else (.ok ⟨succ, failed, []⟩, fs')

/-- Outcome of the per-target loop of `batch_delete_blocking`: an early
`return Ok(...)` (cancellation or dead channel) or completion. -/
inductive DelLoopOut : Type where
  | abort (succ : List FPath) (failed : List (FPath × String)) (fs : FS)
      (trace : List DeleteProgress) (polls : Nat)
  | done (succ : List FPath) (failed : List (FPath × String)) (par : List FPath)
      (fs : FS) (trace : List DeleteProgress) (polls sends : Nat)
deriving DecidableEq, Repr

/-- The `for (index, file_path) in files.into_iter().enumerate()` loop of
`batch_delete_blocking`: poll the flag, track the parent, attempt the
deletion, send `Progress`, record the outcome (also recorded when the send
fails, right before the early return). -/
def deleteLoop (cancelAt : Option Nat) (sink : Sink) (delEmpty : Bool)
    (total : Nat) :
    List FPath → Nat → FS → List FPath → List (FPath × String) → List FPath →
    Nat → Nat → List DeleteProgress → DelLoopOut
  | [], _, fs, succ, failed, par, p, s, tr => .done succ failed par fs tr p s
  | f :: rest, idx, fs, succ, failed, par, p, s, tr =>
    if flagRead cancelAt p then .abort succ failed fs (tr ++ [.cancelled]) (p + 1)
    else
      let par' := if delEmpty then insertParent par f else par
      let dres := deleteOne fs f
      let fs' := match dres with
        | .ok fsNew => fsNew
        | .error _ => fs
      let succ' := match dres with
        | .ok _ => succ ++ [f]
        | .error _ => succ
      let failed' := match dres with
        | .ok _ => failed
        | .error e => failed ++ [(f, e)]
      if sink s then
        deleteLoop cancelAt sink delEmpty total rest (idx + 1) fs' succ' failed'
          par' (p + 1) (s + 1) (tr ++ [.progress (idx + 1) total f])
      else .abort succ' failed' fs' (tr ++ [.progress (idx + 1) total f]) (p + 1)

/-- Outcome of the cancellable cleanup loop of `batch_delete_blocking`. -/
inductive CleanOut : Type where
  | abort (fs : FS) (del : List FPath) (trace : List DeleteProgress) (polls : Nat)
  | done (fs : FS) (del : List FPath) (trace : List DeleteProgress) (polls : Nat)
deriving DecidableEq, Repr

/-- The `for dir in dirs` cleanup loop of `batch_delete_blocking`: re-test
cancellation before each candidate, then proceed as `cleanupDirs`. -/
def cleanupLoop (cancelAt : Option Nat) :
    List FPath → FS → List FPath → Nat → List DeleteProgress → CleanOut
  | [], fs, del, p, tr => .done fs del tr p
  | d :: rest, fs, del, p, tr =>
    if flagRead cancelAt p then .abort fs del (tr ++ [.cancelled]) (p + 1)
    else if (d ∈ fs.files ∨ d ∈ fs.dirs) ∧ d ∈ fs.dirs then
      if dirIsEmpty fs d then
        cleanupLoop cancelAt rest (removeDirOp fs d) (del ++ [d]) (p + 1) tr
      else cleanupLoop cancelAt rest fs del (p + 1) tr
    else cleanupLoop cancelAt rest fs del (p + 1) tr

/-- The observable outcome of one run of `batch_delete_blocking`. -/
structure DeleteRun where
  res : Except String DeleteResult
  trace : List DeleteProgress
  polls : Nat
  fs : FS
deriving DecidableEq, Repr

/-- `batch_delete_blocking` from `remove.rs`. -/
def batch_delete_blocking (files : List FPath) (delEmpty : Bool)
    (cancelAt : Option Nat) (sink : Sink) (fs : FS) : DeleteRun :=
  let total := files.length
  if sink 0 = false then ⟨.ok ⟨[], [], []⟩, [.started total], 0, fs⟩
  else
    match deleteLoop cancelAt sink delEmpty total files 0 fs [] [] [] 0 1
        [.started total] with
    | .abort succ failed fs' tr p => ⟨.ok ⟨succ, failed, []⟩, tr, p, fs'⟩
    | .done succ failed par fs' tr p _s =>
      if delEmpty then
        if flagRead cancelAt p then
          ⟨.ok ⟨succ, failed, []⟩,
            tr ++ [.completed succ.length failed.length], p + 1, fs'⟩
        else
          match cleanupLoop cancelAt (sortDirsDesc par) fs' [] (p + 1) tr with
          | .abort fs'' del tr' p' => ⟨.ok ⟨succ, failed, del⟩, tr', p', fs''⟩
          | .done fs'' del tr' p' =>
              ⟨.ok ⟨succ, failed, del⟩,
                tr' ++ [.completed succ.length failed.length], p', fs''⟩
      else
        ⟨.ok ⟨succ, failed, []⟩,
          tr ++ [.completed succ.length failed.length], p, fs'⟩

/-- `batch_delete_with_progress` (the async command): registration, then the
blocking pipeline; the guard's drop removes the registry entry. -/
def batch_delete_with_progress (reg : Registry) (opId : String) (now : Nat)
    (files : List FPath) (delEmpty : Bool) (cancelAt : Option Nat)
    (sink : Sink) (fs : FS) : DeleteRun × Registry :=
  match try_register reg opId now with
  | (.error _, reg') => (⟨.ok ⟨[], [], []⟩, [.cancelled], 0, fs⟩, reg')
  | (.ok _, reg') =>
    (batch_delete_blocking files delEmpty cancelAt sink fs, guard_drop reg' opId)

/-! ### Registry lemmas -/

theorem rlookup_filter_of_rlookup {r : Registry} {id : String} {e : OperationEntry}
    (p : String × OperationEntry → Bool)
    (h : rlookup r id = some e) (hp : p (id, e) = true) :
    rlookup (r.filter p) id = some e := by
  induction r with
  | nil => simp [rlookup] at h
  | cons hd tl ih =>
    obtain ⟨k, v⟩ := hd
    rw [List.filter_cons]
    by_cases hk : k = id
    · subst hk
      simp only [rlookup, eq_self_iff_true, if_true, Option.some.injEq] at h
      subst h
      rw [if_pos hp]
      simp [rlookup]
    · simp only [rlookup, if_neg hk] at h
      by_cases hpk : p (k, v) = true
      · rw [if_pos hpk]
        simp only [rlookup, if_neg hk]
        exact ih h
      · rw [if_neg hpk]
        exact ih h

theorem rlookup_filter_keep {r : Registry} {id : String}
    (p : String × OperationEntry → Bool)
    (h : ∀ v, p (id, v) = true) :
    rlookup (r.filter p) id = rlookup r id := by
  induction r with
  | nil => rfl
  | cons hd tl ih =>
    obtain ⟨k, v⟩ := hd
    rw [List.filter_cons]
    by_cases hk : k = id
    · subst hk
      rw [if_pos (h v)]
      simp [rlookup]
    · by_cases hpk : p (k, v) = true
      · rw [if_pos hpk]
        simp only [rlookup, if_neg hk]
        exact ih
      · rw [if_neg hpk]
        simp only [rlookup, if_neg hk]
        exact ih

theorem rlookup_filter_drop {r : Registry} {id : String}
    (p : String × OperationEntry → Bool)
    (h : ∀ v, p (id, v) = false) :
    rlookup (r.filter p) id = none := by
  induction r with
  | nil => rfl
  | cons hd tl ih =>
    obtain ⟨k, v⟩ := hd
    rw [List.filter_cons]
    by_cases hk : k = id
    · subst hk
      rw [if_neg (by simp [h v])]
      exact ih
    · by_cases hpk : p (k, v) = true
      · rw [if_pos hpk]
        simp only [rlookup, if_neg hk]
        exact ih
      · rw [if_neg hpk]
        exact ih

theorem rlookup_filter_ne {r : Registry} {id id' : String}
    (h : id' ≠ id) :
    rlookup (rremove r id) id' = rlookup r id' := by
  exact rlookup_filter_keep _ (fun v => by simp [h])

theorem rlookup_rremove_self (r : Registry) (id : String) :
    rlookup (rremove r id) id = none := by
  exact rlookup_filter_drop _ (fun v => by simp)

theorem rlookup_rinsert_self (r : Registry) (id : String) (e : OperationEntry) :
    rlookup (rinsert r id e) id = some e := by
  simp [rinsert, rlookup]

theorem rlookup_rinsert_ne {r : Registry} {id id' : String} (e : OperationEntry)
    (h : id' ≠ id) :
    rlookup (rinsert r id e) id' = rlookup r id' := by
  simp only [rinsert, rlookup]
  rw [if_neg (fun hh => h hh.symm)]
  exact rlookup_filter_ne h

theorem rlookup_eq_none_of_not_key {r : Registry} {id : String}
    (h : id ∉ r.map Prod.fst) : rlookup r id = none := by
  induction r with
  | nil => rfl
  | cons hd tl ih =>
    obtain ⟨k, v⟩ := hd
    simp only [List.map_cons, List.mem_cons] at h
    push_neg at h
    have hk : ¬ k = id := fun hh => h.1 hh.symm
    simp only [rlookup]
    rw [if_neg hk]
    exact ih h.2

theorem rlookup_filter_drop_of_nodup {r : Registry} {id : String}
    {e : OperationEntry} (p : String × OperationEntry → Bool)
    (hnd : (r.map Prod.fst).Nodup)
    (h : rlookup r id = some e) (hp : p (id, e) = false) :
    rlookup (r.filter p) id = none := by
  induction r with
  | nil => simp [rlookup] at h
  | cons hd tl ih =>
    obtain ⟨k, v⟩ := hd
    simp only [List.map_cons, List.nodup_cons] at hnd
    rw [List.filter_cons]
    by_cases hk : k = id
    · subst hk
      simp only [rlookup, eq_self_iff_true, if_true, Option.some.injEq] at h
      subst h
      rw [if_neg (by simp [hp])]
      have hkeys : k ∉ (tl.filter p).map Prod.fst := fun hmem => by
        have hsub : List.Sublist ((tl.filter p).map Prod.fst) (tl.map Prod.fst) :=
          List.Sublist.map Prod.fst (List.filter_sublist tl)
        exact hnd.1 (hsub.mem hmem)
      exact rlookup_eq_none_of_not_key hkeys
    · simp only [rlookup, if_neg hk] at h
      by_cases hpk : p (k, v) = true
      · rw [if_pos hpk]
        simp only [rlookup]
        rw [if_neg hk]
        exact ih hnd.2 h
      · rw [if_neg hpk]
        exact ih hnd.2 h

theorem rlookup_setFlagTrue_self {r : Registry} {id : String}
    {e : OperationEntry} (h : rlookup r id = some e) :
    rlookup (setFlagTrue id r) id = some (.active true) := by
  induction r with
  | nil => simp [rlookup] at h
  | cons hd tl ih =>
    obtain ⟨k, v⟩ := hd
    simp only [setFlagTrue, List.map_cons]
    by_cases hk : k = id
    · rw [show (if (k, v).1 = id then ((k, v).1, OperationEntry.active true)
          else (k, v)) = (k, OperationEntry.active true) from if_pos hk]
      simp only [rlookup]
      rw [if_pos hk]
    · rw [show (if (k, v).1 = id then ((k, v).1, OperationEntry.active true)
          else (k, v)) = (k, v) from if_neg hk]
      simp only [rlookup, if_neg hk] at h
      simp only [rlookup]
      rw [if_neg hk]
      exact ih h

theorem rlookup_setFlagTrue_ne {r : Registry} {id id' : String}
    (h : id' ≠ id) : rlookup (setFlagTrue id r) id' = rlookup r id' := by
  induction r with
  | nil => rfl
  | cons hd tl ih =>
    obtain ⟨k, v⟩ := hd
    simp only [setFlagTrue, List.map_cons] at ih ⊢
    by_cases hk : k = id
    · have hk' : ¬ k = id' := by rw [hk]; exact fun hh => h hh.symm
      rw [show (if (k, v).1 = id then ((k, v).1, OperationEntry.active true)
          else (k, v)) = (k, OperationEntry.active true) from if_pos hk]
      simp only [rlookup]
      rw [if_neg hk', if_neg hk']
      exact ih
    · rw [show (if (k, v).1 = id then ((k, v).1, OperationEntry.active true)
          else (k, v)) = (k, v) from if_neg hk]
      simp only [rlookup]
      by_cases hk' : k = id'
      · rw [if_pos hk', if_pos hk']
      · rw [if_neg hk', if_neg hk']
        exact ih

theorem setFlagTrue_idem (id : String) (r : Registry) :
    setFlagTrue id (setFlagTrue id r) = setFlagTrue id r := by
  simp only [setFlagTrue, List.map_map]
  apply List.map_congr_left
  intro p _
  by_cases hk : p.1 = id
  · rw [show (if p.1 = id then (p.1, OperationEntry.active true) else p)
        = (p.1, OperationEntry.active true) from if_pos hk]
    simp only [Function.comp_apply]
    rw [show (if p.1 = id then (p.1, OperationEntry.active true) else p)
        = (p.1, OperationEntry.active true) from if_pos hk, if_pos hk]
  · rw [Function.comp_apply,
      show (if p.1 = id then (p.1, OperationEntry.active true) else p) = p
        from if_neg hk,
      show (if p.1 = id then (p.1, OperationEntry.active true) else p) = p
        from if_neg hk]

theorem length_setFlagTrue (id : String) (r : Registry) :
    (setFlagTrue id r).length = r.length :=
  List.length_map r _

/-! ### Claim theorems: registry (C1, C6, C7) -/

/-- **C1.** If the registry maps `id` to a `Tombstone`, `try_register(id)`
fails with `CancelledError`, the resulting registry is exactly the input with
the tombstone removed (so no entry for `id` remains, and no guard or flag is
created — the error branch carries neither), and the tombstone is consumed
exactly once: a second registration of the same id now succeeds. -/
theorem claim_C1 (r : Registry) (id : String) (now t : Nat)
    (h : rlookup r id = some (.tombstone t)) :
    try_register r id now = (.error .mk, rremove r id) ∧
    rlookup (rremove r id) id = none ∧
    ∀ now₂, (try_register (rremove r id) id now₂).1 = .ok false := by
  refine ⟨?_, rlookup_rremove_self r id, ?_⟩
  · simp [try_register, h]
  · intro now₂
    simp [try_register, rlookup_rremove_self r id]

/-- Witness for C1 at a concrete pre-cancelled registry. -/
theorem claim_C1_witness :
    try_register [("op1", OperationEntry.tombstone 5)] "op1" 7 =
      (.error .mk, rremove [("op1", OperationEntry.tombstone 5)] "op1") ∧
    rlookup (rremove [("op1", OperationEntry.tombstone 5)] "op1") "op1" = none ∧
    ∀ now₂,
      (try_register (rremove [("op1", OperationEntry.tombstone 5)] "op1") "op1"
        now₂).1 = .ok false :=
  claim_C1 [("op1", OperationEntry.tombstone 5)] "op1" 7 5 (by decide)

/-- **C6 (amended).** The sweep keeps every `Active` entry; it removes a
`Tombstone` exactly when its age has *reached* (`≥`, not strictly exceeded)
`TOMBSTONE_MAX_AGE`; a registration on a registry at or under
`SWEEP_THRESHOLD` entries leaves every other id's entry untouched (no sweep
runs); and a fresh tombstone (age `< TOMBSTONE_MAX_AGE`) under another id
survives any registration, sweep or not. -/
theorem claim_C6_amended :
    (∀ (now : Nat) (r : Registry) (id : String) (b : Bool),
        rlookup r id = some (.active b) →
        rlookup (sweep_old_tombstones now r) id = some (.active b)) ∧
    (∀ (now : Nat) (r : Registry) (id : String) (c : Nat),
        (r.map Prod.fst).Nodup →
        rlookup r id = some (.tombstone c) →
        rlookup (sweep_old_tombstones now r) id =
          (if now - c < TOMBSTONE_MAX_AGE then some (.tombstone c) else none)) ∧
    (∀ (r : Registry) (id id' : String) (now : Nat),
        r.length ≤ SWEEP_THRESHOLD → id' ≠ id →
        rlookup ((try_register r id now).2) id' = rlookup r id') ∧
    (∀ (r : Registry) (id id' : String) (now c : Nat),
        id' ≠ id → rlookup r id' = some (.tombstone c) →
        now - c < TOMBSTONE_MAX_AGE →
        rlookup ((try_register r id now).2) id' = some (.tombstone c)) := by
  refine ⟨?_, ?_, ?_, ?_⟩
  · intro now r id b h
    exact rlookup_filter_of_rlookup _ h rfl
  · intro now r id c hnd h
    by_cases hage : now - c < TOMBSTONE_MAX_AGE
    · rw [if_pos hage]
      exact rlookup_filter_of_rlookup _ h (by simp [hage])
    · rw [if_neg hage]
      exact rlookup_filter_drop_of_nodup _ hnd h (by simp [hage])
  · intro r id id' now hlen hne
    cases hr : rlookup r id with
    | none =>
      simp only [try_register, hr, Nat.lt_iff_add_one_le]
      rw [if_neg (by omega)]
      exact rlookup_rinsert_ne _ hne
    | some e =>
      cases e with
      | active b =>
        simp only [try_register, hr, Nat.lt_iff_add_one_le]
        rw [if_neg (by omega)]
        exact rlookup_rinsert_ne _ hne
      | tombstone t =>
        simp only [try_register, hr]
        exact rlookup_filter_ne hne
  · intro r id id' now c hne h hfresh
    cases hr : rlookup r id with
    | none =>
      simp only [try_register, hr]
      by_cases hlen : r.length > SWEEP_THRESHOLD
      · rw [if_pos hlen, rlookup_rinsert_ne _ hne]
        exact rlookup_filter_of_rlookup _ h (by simp [hfresh])
      · rw [if_neg hlen, rlookup_rinsert_ne _ hne]
        exact h
    | some e =>
      cases e with
      | active b =>
        simp only [try_register, hr]
        by_cases hlen : r.length > SWEEP_THRESHOLD
        · rw [if_pos hlen, rlookup_rinsert_ne _ hne]
          exact rlookup_filter_of_rlookup _ h (by simp [hfresh])
        · rw [if_neg hlen, rlookup_rinsert_ne _ hne]
          exact h
      | tombstone t =>
        simp only [try_register, hr]
        rw [rlookup_filter_ne hne]
        exact h

/-- Witness for the amended C6 at concrete registries. -/
theorem claim_C6_amended_witness :
    rlookup (sweep_old_tombstones 200 [("a", OperationEntry.active false)]) "a"
      = some (.active false) ∧
    rlookup (sweep_old_tombstones 200 [("old", OperationEntry.tombstone 0)])
        "old" =
      (if 200 - 0 < TOMBSTONE_MAX_AGE then some (.tombstone 0) else none) ∧
    rlookup ((try_register [("x", OperationEntry.tombstone 0)] "y" 200).2) "x" =
      rlookup [("x", OperationEntry.tombstone 0)] "x" ∧
    rlookup ((try_register [("z", OperationEntry.tombstone 190)] "y" 200).2) "z"
      = some (.tombstone 190) :=
  ⟨claim_C6_amended.1 200 _ "a" false (by decide),
   claim_C6_amended.2.1 200 _ "old" 0 (by decide) (by decide),
   claim_C6_amended.2.2.1 _ "y" "x" 200 (by decide) (by decide),
   claim_C6_amended.2.2.2 _ "y" "z" 200 190 (by decide) (by decide) (by decide)⟩

/-- **C6 counterexample.** A tombstone whose age equals `TOMBSTONE_MAX_AGE`
exactly (60 s) is removed by the sweep although its age does not *exceed* the
maximum age, refuting the claim's "only if the tombstone's age exceeds the
fixed maximum age". -/
theorem claim_C6_counterexample :
    rlookup (sweep_old_tombstones 60 [("old", OperationEntry.tombstone 0)])
      "old" = none ∧
    ¬ (60 - 0 > TOMBSTONE_MAX_AGE) := by
  constructor
  · decide
  · decide

/-- **C7.** `cancel` is idempotent: on an id mapped to an `Active` entry it
sets the flag to `true` and keeps the entry `Active`; repeating the call
changes nothing further; the registry size is unchanged (no duplicate, no
removal) and every other id's entry is untouched.  On an id mapped to a
`Tombstone`, `cancel` changes nothing at all. -/
theorem claim_C7 :
    (∀ (r : Registry) (id : String) (now now' : Nat) (b : Bool),
        rlookup r id = some (.active b) →
        rlookup (cancel r id now) id = some (.active true) ∧
        cancel (cancel r id now) id now' = cancel r id now ∧
        (cancel r id now).length = r.length ∧
        ∀ id', id' ≠ id → rlookup (cancel r id now) id' = rlookup r id') ∧
    (∀ (r : Registry) (id : String) (now t : Nat),
        rlookup r id = some (.tombstone t) → cancel r id now = r) := by
  constructor
  · intro r id now now' b h
    have hc : cancel r id now = setFlagTrue id r := by simp [cancel, h]
    have hl : rlookup (setFlagTrue id r) id = some (.active true) :=
      rlookup_setFlagTrue_self h
    refine ⟨hc ▸ hl, ?_, ?_, ?_⟩
    · rw [hc]
      simp [cancel, hl, setFlagTrue_idem]
    · rw [hc]
      exact length_setFlagTrue id r
    · intro id' hne
      rw [hc]
      exact rlookup_setFlagTrue_ne hne
  · intro r id now t h
    simp [cancel, h]

/-- Witness for C7 at concrete registries. -/
theorem claim_C7_witness :
    (rlookup (cancel [("a", OperationEntry.active false)] "a" 3) "a" =
        some (.active true) ∧
      cancel (cancel [("a", OperationEntry.active false)] "a" 3) "a" 9 =
        cancel [("a", OperationEntry.active false)] "a" 3 ∧
      (cancel [("a", OperationEntry.active false)] "a" 3).length =
        ([("a", OperationEntry.active false)] : Registry).length ∧
      ∀ id', id' ≠ "a" →
        rlookup (cancel [("a", OperationEntry.active false)] "a" 3) id' =
          rlookup [("a", OperationEntry.active false)] id') ∧
    cancel [("b", OperationEntry.tombstone 4)] "b" 8 =
      [("b", OperationEntry.tombstone 4)] :=
  ⟨claim_C7.1 _ "a" 3 9 false (by decide),
   claim_C7.2 _ "b" 8 4 (by decide)⟩

/-! ### Claim theorems: simple substring matching (C3) -/

theorem findSub_eq_some {s pat : FName} {i : Nat} (h : findSub s pat = some i) :
    isPrefixL pat (s.drop i) = true ∧
    ∀ j, j < i → isPrefixL pat (s.drop j) = false := by
  induction s generalizing i with
  | nil =>
    unfold findSub at h
    by_cases hp : isPrefixL pat [] = true
    · rw [if_pos hp] at h
      injection h with h
      subst h
      exact ⟨hp, fun j hj => absurd hj (Nat.not_lt_zero j)⟩
    · rw [if_neg hp] at h
      exact absurd h (by simp)
  | cons c t ih =>
    unfold findSub at h
    by_cases hp : isPrefixL pat (c :: t) = true
    · rw [if_pos hp] at h
      injection h with h
      subst h
      exact ⟨hp, fun j hj => absurd hj (Nat.not_lt_zero j)⟩
    · rw [if_neg hp] at h
      have h' : (findSub t pat).map (· + 1) = some i := h
      rcases hopt : findSub t pat with _ | j
      · rw [hopt] at h'
        simp at h'
      · rw [hopt] at h'
        simp only [Option.map_some'] at h'
        injection h' with h'
        subst h'
        obtain ⟨h1, h2⟩ := ih hopt
        refine ⟨by simpa [List.drop_succ_cons] using h1, ?_⟩
        intro j' hj'
        cases j' with
        | zero => simpa using Bool.eq_false_iff.mpr hp
        | succ j'' =>
          rw [List.drop_succ_cons]
          exact h2 j'' (by omega)

theorem findSub_eq_none {s pat : FName} (h : findSub s pat = none) :
    ∀ j, isPrefixL pat (s.drop j) = false := by
  induction s with
  | nil =>
    unfold findSub at h
    by_cases hp : isPrefixL pat [] = true
    · rw [if_pos hp] at h
      exact absurd h (by simp)
    · intro j
      rw [List.drop_nil]
      exact Bool.eq_false_iff.mpr hp
  | cons c t ih =>
    unfold findSub at h
    by_cases hp : isPrefixL pat (c :: t) = true
    · rw [if_pos hp] at h
      exact absurd h (by simp)
    · rw [if_neg hp] at h
      have h' : (findSub t pat).map (· + 1) = none := h
      intro j
      cases j with
      | zero => simpa using Bool.eq_false_iff.mpr hp
      | succ j' =>
        rw [List.drop_succ_cons]
        rcases hopt : findSub t pat with _ | k
        · exact ih hopt j'
        · rw [hopt] at h'
          simp at h'

theorem findSub_lt_length {s pat : FName} {i : Nat} (hpat : pat ≠ [])
    (h : findSub s pat = some i) : i < s.length := by
  have h1 := (findSub_eq_some h).1
  by_contra hge
  push_neg at hge
  rw [List.drop_eq_nil_of_le hge] at h1
  cases pat with
  | nil => exact hpat rfl
  | cons a as => simp [isPrefixL] at h1

theorem msLoop_spec {pat : FName} (plen : Nat) (hpat : pat ≠ []) :
    ∀ fuel s offset, s.length < fuel →
      (∀ r ∈ msLoop pat plen fuel s offset,
          r.2 = r.1 + plen ∧ offset ≤ r.1 ∧
          isPrefixL pat (s.drop (r.1 - offset)) = true) ∧
      List.Pairwise (fun x y : Nat × Nat => x.1 < y.1)
        (msLoop pat plen fuel s offset) ∧
      (∀ j, isPrefixL pat (s.drop j) = true →
          (offset + j, offset + j + plen) ∈ msLoop pat plen fuel s offset) := by
  intro fuel
  induction fuel with
  | zero => intro s offset hlt; omega
  | succ f ih =>
    intro s offset hlt
    rcases hfs : findSub s pat with _ | pos
    · refine ⟨by simp [msLoop, hfs], by simp [msLoop, hfs], ?_⟩
      intro j hj
      rw [findSub_eq_none hfs j] at hj
      cases hj
    · have hposlt : pos < s.length := findSub_lt_length hpat hfs
      have hflt : (s.drop (pos + 1)).length < f := by
        rw [List.length_drop]
        omega
      obtain ⟨ih1, ih2, ih3⟩ := ih (s.drop (pos + 1)) (offset + pos + 1) hflt
      have hunfold : msLoop pat plen (f + 1) s offset =
          (offset + pos, offset + pos + plen) ::
            msLoop pat plen f (s.drop (pos + 1)) (offset + pos + 1) := by
        simp [msLoop, hfs]
      rw [hunfold]
      refine ⟨?_, ?_, ?_⟩
      · intro r hr
        rcases List.mem_cons.mp hr with hr | hr
        · subst hr
          refine ⟨rfl, by omega, ?_⟩
          have : offset + pos - offset = pos := by omega
          rw [this]
          exact (findSub_eq_some hfs).1
        · obtain ⟨hra, hrb, hrc⟩ := ih1 r hr
          refine ⟨hra, by omega, ?_⟩
          rw [List.drop_drop] at hrc
          have heq : r.1 - offset = pos + 1 + (r.1 - (offset + pos + 1)) := by
            omega
          rw [heq]
          exact hrc
      · rw [List.pairwise_cons]
        refine ⟨?_, ih2⟩
        intro y hy
        have := (ih1 y hy).2.1
        simp only
        omega
      · intro j hj
        have hjpos : pos ≤ j := by
          by_contra hc
          push_neg at hc
          rw [(findSub_eq_some hfs).2 j hc] at hj
          cases hj
        rcases Nat.eq_or_lt_of_le hjpos with hje | hjlt
        · subst hje
          exact List.mem_cons_self _ _
        · have hj' : isPrefixL pat ((s.drop (pos + 1)).drop (j - (pos + 1))) =
              true := by
            rw [List.drop_drop]
            have heq : pos + 1 + (j - (pos + 1)) = j := by omega
            rw [heq]
            exact hj
          have := ih3 (j - (pos + 1)) hj'
          have heq : offset + pos + 1 + (j - (pos + 1)) = offset + j := by omega
          rw [heq] at this
          exact List.mem_cons_of_mem _ this

/-- **C3 (amended).** For a non-empty pattern, `match_simple` returns the
`(start, start + pattern.len())` ranges of **all** occurrences of the
(case-adjusted) pattern in the (case-adjusted) name, found scanning
left-to-right and resuming one position past each match's start — so the
starts are strictly increasing, every returned range has the pattern's
length, every returned start is a genuine occurrence, every occurrence is
returned (consecutive ranges may overlap when occurrences are closer than the
pattern length), and `None` is returned exactly when there is no
occurrence. -/
theorem claim_C3_amended (name pat : FName) (cs : Bool) (hpat : pat ≠ []) :
    (match_simple name pat cs = none →
      ∀ j, isPrefixL (if cs then pat else toLowerName pat)
          ((if cs then name else toLowerName name).drop j) = false) ∧
    ∀ L, match_simple name pat cs = some L →
      L ≠ [] ∧
      (∀ r ∈ L, r.2 = r.1 + pat.length) ∧
      List.Pairwise (fun x y : Nat × Nat => x.1 < y.1) L ∧
      (∀ r ∈ L, occursAt (if cs then name else toLowerName name)
          (if cs then pat else toLowerName pat) r.1) ∧
      (∀ j, occursAt (if cs then name else toLowerName name)
          (if cs then pat else toLowerName pat) j → (j, j + pat.length) ∈ L) := by
  have hsp : (if cs then pat else toLowerName pat) ≠ [] := by
    cases cs with
    | false =>
      have hred : (if (false : Bool) = true then pat else toLowerName pat) =
          toLowerName pat := by simp
      rw [hred]
      intro h
      apply hpat
      have hlen := congrArg List.length h
      rw [toLowerName, List.length_map] at hlen
      exact List.eq_nil_of_length_eq_zero hlen
    | true => simpa using hpat
  obtain ⟨hs1, hs2, hs3⟩ :=
    @msLoop_spec (if cs then pat else toLowerName pat) pat.length hsp
      ((if cs then name else toLowerName name).length + 1)
      (if cs then name else toLowerName name) 0 (by omega)
  constructor
  · intro hnone j
    unfold match_simple at hnone
    by_cases hemp : (msLoop (if cs then pat else toLowerName pat) pat.length
        ((if cs then name else toLowerName name).length + 1)
        (if cs then name else toLowerName name) 0).isEmpty = true
    · by_contra hocc
      have hocc' : isPrefixL (if cs then pat else toLowerName pat)
          ((if cs then name else toLowerName name).drop j) = true := by
        rcases hb : isPrefixL (if cs then pat else toLowerName pat)
            ((if cs then name else toLowerName name).drop j) with _ | _
        · exact absurd hb hocc
        · rfl
      have := hs3 j hocc'
      rw [List.isEmpty_iff] at hemp
      rw [hemp] at this
      cases this
    · rw [if_neg hemp] at hnone
      exact absurd hnone (by simp)
  · intro L hL
    unfold match_simple at hL
    by_cases hemp : (msLoop (if cs then pat else toLowerName pat) pat.length
        ((if cs then name else toLowerName name).length + 1)
        (if cs then name else toLowerName name) 0).isEmpty = true
    · rw [if_pos hemp] at hL
      exact absurd hL (by simp)
    · rw [if_neg hemp] at hL
      injection hL with hL
      subst hL
      refine ⟨fun hnil => hemp (by rw [hnil]; rfl), ?_, hs2, ?_, ?_⟩
      · intro r hr
        exact (hs1 r hr).1
      · intro r hr
        have := (hs1 r hr).2.2
        rw [Nat.sub_zero] at this
        exact this
      · intro j hj
        have := hs3 j hj
        rw [Nat.zero_add] at this
        exact this

/-- Witness for the amended C3: name `"aba"`, pattern `"a"`, case-sensitive;
both occurrences are returned. -/
theorem claim_C3_amended_witness :
    ([(0, 1), (2, 3)] : List (Nat × Nat)) ≠ [] ∧
    (∀ r ∈ ([(0, 1), (2, 3)] : List (Nat × Nat)), r.2 = r.1 + 1) ∧
    List.Pairwise (fun x y : Nat × Nat => x.1 < y.1) [(0, 1), (2, 3)] ∧
    (∀ r ∈ ([(0, 1), (2, 3)] : List (Nat × Nat)),
        occursAt ('a' :: 'b' :: 'a' :: []) ('a' :: []) r.1) ∧
    (∀ j, occursAt ('a' :: 'b' :: 'a' :: []) ('a' :: []) j →
        (j, j + 1) ∈ ([(0, 1), (2, 3)] : List (Nat × Nat))) :=
  (claim_C3_amended ('a' :: 'b' :: 'a' :: []) ('a' :: []) true (by decide)).2
    [(0, 1), (2, 3)] (by decide)

/-- **C3 counterexample.** On name `"aaa"` and pattern `"aa"` the returned
ranges `(0,2)` and `(1,3)` overlap: the scan resumes at `start + 1`, not past
the previous match, so the claimed "non-overlapping occurrences / no two
returned ranges overlap" is false. -/
theorem claim_C3_counterexample :
    match_simple ('a' :: 'a' :: 'a' :: []) ('a' :: 'a' :: []) true =
      some [(0, 2), (1, 3)] ∧
    rangesOverlap (0, 2) (1, 3) := by
  refine ⟨by decide, by omega, by omega⟩

/-! ### Claim theorems: delete never fails at function level (C10) -/

/-- **C10.** Both `batch_delete` and `batch_delete_blocking` always return
`Ok`: every exit path builds `Ok(DeleteResult { .. })`, per-item failures are
only recorded in the `failed` list, and the `Err` branch of the signature is
unreachable — for every file list, `delete_empty_dirs` value, cancellation
schedule, channel behaviour, and filesystem. -/
theorem claim_C10 (files : List FPath) (delEmpty : Bool) (fs : FS)
    (cancelAt : Option Nat) (sink : Sink) :
    (batch_delete files delEmpty fs).1.isOk = true ∧
    (batch_delete_blocking files delEmpty cancelAt sink fs).res.isOk = true := by
  constructor
  · rw [batch_delete]
    rcases processTargets delEmpty files fs [] [] [] with ⟨succ, failed, fs', par⟩
    by_cases h : delEmpty = true
    · simp only [h, if_true]
      rfl
    · simp only [h, if_false]
      rfl
  · rw [batch_delete_blocking]
    by_cases h0 : sink 0 = false
    · rw [if_pos h0]
      rfl
    · rw [if_neg h0]
      cases deleteLoop cancelAt sink delEmpty files.length files 0 fs [] [] []
          0 1 [.started files.length] with
      | abort succ failed fs' tr p => rfl
      | done succ failed par fs' tr p s =>
        by_cases hd : delEmpty = true
        · simp only [hd, if_true]
          by_cases hc : flagRead cancelAt p = true
          · simp only [hc, if_true]
            rfl
          · simp only [hc, if_false]
            cases cleanupLoop cancelAt (sortDirsDesc par) fs' [] (p + 1) tr with
            | abort fs'' del tr' p' => rfl
            | done fs'' del tr' p' => rfl
        · simp only [hd, if_false]
          rfl

/-! ### Lemmas: parent gathering, sorting and cleanup (C9) -/

theorem insertDescBySep_perm (x : FPath) (l : List FPath) :
    List.Perm (insertDescBySep x l) (x :: l) := by
  induction l with
  | nil => exact List.Perm.refl _
  | cons y ys ih =>
    rw [insertDescBySep]
    by_cases h : sepCount y < sepCount x
    · rw [if_pos h]
    · rw [if_neg h]
      exact (List.Perm.cons y ih).trans (List.Perm.swap x y ys)

theorem insertDescBySep_mem {z x : FPath} {l : List FPath} :
    z ∈ insertDescBySep x l ↔ z = x ∨ z ∈ l := by
  rw [(insertDescBySep_perm x l).mem_iff, List.mem_cons]

theorem insertDescBySep_sorted {x : FPath} {l : List FPath}
    (h : List.Pairwise (fun a b => sepCount b ≤ sepCount a) l) :
    List.Pairwise (fun a b => sepCount b ≤ sepCount a) (insertDescBySep x l) := by
  induction l with
  | nil => simp [insertDescBySep]
  | cons y ys ih =>
    rw [List.pairwise_cons] at h
    obtain ⟨hy, hys⟩ := h
    rw [insertDescBySep]
    by_cases hlt : sepCount y < sepCount x
    · rw [if_pos hlt, List.pairwise_cons]
      refine ⟨?_, List.pairwise_cons.mpr ⟨hy, hys⟩⟩
      intro z hz
      rcases List.mem_cons.mp hz with hz | hz
      · subst hz; omega
      · have := hy z hz; omega
    · rw [if_neg hlt, List.pairwise_cons]
      refine ⟨?_, ih hys⟩
      intro z hz
      rcases insertDescBySep_mem.mp hz with hz | hz
      · subst hz; omega
      · exact hy z hz

theorem sortDirsDesc_perm (l : List FPath) :
    List.Perm (sortDirsDesc l) l := by
  induction l with
  | nil => exact List.Perm.refl _
  | cons a l ih =>
    exact (insertDescBySep_perm a (sortDirsDesc l)).trans (List.Perm.cons a ih)

theorem sortDirsDesc_sorted (l : List FPath) :
    List.Pairwise (fun a b => sepCount b ≤ sepCount a) (sortDirsDesc l) := by
  induction l with
  | nil => simp [sortDirsDesc]
  | cons a l ih => exact insertDescBySep_sorted ih

theorem insertParent_nodup {par : List FPath} (f : FPath) (h : par.Nodup) :
    (insertParent par f).Nodup := by
  cases hp : parentOf f with
  | none => simpa [insertParent, hp] using h
  | some d =>
    by_cases hd : d ∈ par
    · simpa [insertParent, hp, if_pos hd] using h
    · simp only [insertParent, hp, if_neg hd]
      simpa [List.nodup_append] using ⟨h, hd⟩

theorem insertParent_mem {par : List FPath} {f z : FPath} :
    z ∈ insertParent par f ↔ z ∈ par ∨ parentOf f = some z := by
  cases hp : parentOf f with
  | none => simp [insertParent, hp]
  | some d =>
    by_cases hd : d ∈ par
    · simp only [insertParent, hp, if_pos hd, Option.some.injEq]
      constructor
      · exact fun hz => Or.inl hz
      · intro hz
        rcases hz with hz | hz
        · exact hz
        · subst hz; exact hd
    · simp only [insertParent, hp, if_neg hd, List.mem_append,
        List.mem_singleton, Option.some.injEq]
      constructor
      · rintro (hz | hz)
        · exact Or.inl hz
        · exact Or.inr hz.symm
      · rintro (hz | hz)
        · exact Or.inl hz
        · exact Or.inr hz.symm

theorem processTargets_par_eq (delEmpty : Bool) :
    ∀ (files : List FPath) (fs : FS) (succ : List FPath)
      (failed : List (FPath × String)) (par : List FPath),
      (processTargets delEmpty files fs succ failed par).2.2.2 =
        (if delEmpty then files.foldl insertParent par else par) := by
  intro files
  induction files with
  | nil =>
    intro fs succ failed par
    cases delEmpty <;> simp [processTargets]
  | cons f rest ih =>
    intro fs succ failed par
    rw [processTargets]
    cases hdel : deleteOne fs f with
    | ok fs' =>
      rw [ih]
      cases delEmpty <;> simp [List.foldl_cons]
    | error e =>
      rw [ih]
      cases delEmpty <;> simp [List.foldl_cons]

theorem foldl_insertParent_nodup :
    ∀ (files : List FPath) (par : List FPath), par.Nodup →
      (files.foldl insertParent par).Nodup := by
  intro files
  induction files with
  | nil => intro par h; exact h
  | cons f rest ih =>
    intro par h
    rw [List.foldl_cons]
    exact ih _ (insertParent_nodup f h)

theorem foldl_insertParent_mem :
    ∀ (files : List FPath) (par : List FPath) (z : FPath),
      z ∈ files.foldl insertParent par ↔
        z ∈ par ∨ ∃ f ∈ files, parentOf f = some z := by
  intro files
  induction files with
  | nil => intro par z; simp
  | cons f rest ih =>
    intro par z
    rw [List.foldl_cons, ih, insertParent_mem]
    constructor
    · intro h
      rcases h with (h | h) | h
      · exact Or.inl h
      · exact Or.inr ⟨f, List.mem_cons_self f rest, h⟩
      · obtain ⟨g, hg, hgz⟩ := h
        exact Or.inr ⟨g, List.mem_cons_of_mem f hg, hgz⟩
    · intro h
      rcases h with h | ⟨g, hg, hgz⟩
      · exact Or.inl (Or.inl h)
      · rcases List.mem_cons.mp hg with hgf | hgr
        · subst hgf; exact Or.inl (Or.inr hgz)
        · exact Or.inr ⟨g, hgr, hgz⟩

theorem cleanupDirs_spec :
    ∀ (ds : List FPath) (fs : FS) (del0 : List FPath),
      ∃ newdel,
        (cleanupDirs ds fs del0).2 = del0 ++ newdel ∧
        List.Sublist newdel ds ∧
        (cleanupDirs ds fs del0).1.files = fs.files ∧
        (∀ d ∈ newdel, d ∈ fs.dirs) ∧
        (cleanupDirs ds fs del0).1.dirs =
          fs.dirs.filter (fun q => decide (q ∉ newdel)) ∧
        (∀ d ∈ newdel, ∀ q ∈ fs.files, isChildOf q d = false) ∧
        (∀ d ∈ newdel, ∀ q ∈ (cleanupDirs ds fs del0).1.dirs,
            isChildOf q d = false) := by
  intro ds
  induction ds with
  | nil =>
    intro fs del0
    refine ⟨[], by simp [cleanupDirs], List.Sublist.refl _, rfl, by simp, ?_,
      by simp, by simp⟩
    simp [cleanupDirs]
  | cons d rest ih =>
    intro fs del0
    by_cases hg : (d ∈ fs.files ∨ d ∈ fs.dirs) ∧ d ∈ fs.dirs
    · by_cases he : dirIsEmpty fs d = true
      · have hunfold : cleanupDirs (d :: rest) fs del0 =
            cleanupDirs rest (removeDirOp fs d) (del0 ++ [d]) := by
          simp [cleanupDirs, hg, he]
        obtain ⟨nd, h1, h2, h3, h4, h5, h6, h7⟩ :=
          ih (removeDirOp fs d) (del0 ++ [d])
        have hfile : (removeDirOp fs d).files = fs.files := rfl
        have hdirs : (removeDirOp fs d).dirs =
            fs.dirs.filter (fun q => decide (q ≠ d)) := rfl
        have hemp := he
        rw [dirIsEmpty, Bool.and_eq_true, List.all_eq_true, List.all_eq_true]
          at hemp
        refine ⟨d :: nd, ?_, List.Sublist.cons₂ d h2, ?_, ?_, ?_, ?_, ?_⟩
        · rw [hunfold, h1, List.append_assoc, List.singleton_append]
        · rw [hunfold, h3, hfile]
        · intro x hx
          rcases List.mem_cons.mp hx with hx | hx
          · subst hx; exact hg.2
          · have := h4 x hx
            rw [hdirs] at this
            exact (List.mem_filter.mp this).1
        · rw [hunfold, h5, hdirs, List.filter_filter]
          apply List.filter_congr
          intro x _
          by_cases hxd : x = d
          · subst hxd
            simp
          · by_cases hxnd : x ∈ nd
            · simp [hxnd]
            · simp [hxnd, hxd, Ne.symm]
        · intro x hx q hq
          rcases List.mem_cons.mp hx with hx | hx
          · subst hx
            have := hemp.1 q hq
            rwa [Bool.not_eq_true'] at this
          · exact h6 x hx q (by rw [hfile]; exact hq)
        · intro x hx q hq
          rw [hunfold] at hq
          rcases List.mem_cons.mp hx with hx | hx
          · subst hx
            have hq' : q ∈ fs.dirs := by
              rw [h5, hdirs] at hq
              exact (List.mem_filter.mp ((List.mem_filter.mp hq).1)).1
            have := hemp.2 q hq'
            rwa [Bool.not_eq_true'] at this
          · exact h7 x hx q hq
      · have hunfold : cleanupDirs (d :: rest) fs del0 =
            cleanupDirs rest fs del0 := by
          simp [cleanupDirs, hg, he]
        obtain ⟨nd, h1, h2, h3, h4, h5, h6, h7⟩ := ih fs del0
        exact ⟨nd, by rw [hunfold]; exact h1, List.Sublist.cons d h2,
          by rw [hunfold]; exact h3, h4, by rw [hunfold]; exact h5, h6,
          by rw [hunfold]; exact h7⟩
    · have hunfold : cleanupDirs (d :: rest) fs del0 =
          cleanupDirs rest fs del0 := by
        simp [cleanupDirs, hg]
      obtain ⟨nd, h1, h2, h3, h4, h5, h6, h7⟩ := ih fs del0
      exact ⟨nd, by rw [hunfold]; exact h1, List.Sublist.cons d h2,
        by rw [hunfold]; exact h3, h4, by rw [hunfold]; exact h5, h6,
        by rw [hunfold]; exact h7⟩

theorem cleanupLoop_none :
    ∀ (ds : List FPath) (fs : FS) (del : List FPath) (p : Nat)
      (tr : List DeleteProgress),
      cleanupLoop none ds fs del p tr =
        .done (cleanupDirs ds fs del).1 (cleanupDirs ds fs del).2 tr
          (p + ds.length) := by
  intro ds
  induction ds with
  | nil => intro fs del p tr; rfl
  | cons d rest ih =>
    intro fs del p tr
    have harith : ∀ m : Nat, p + 1 + m = p + (m + 1) := by omega
    by_cases hg : (d ∈ fs.files ∨ d ∈ fs.dirs) ∧ d ∈ fs.dirs
    · by_cases he : dirIsEmpty fs d = true
      · rw [show cleanupLoop none (d :: rest) fs del p tr =
            cleanupLoop none rest (removeDirOp fs d) (del ++ [d]) (p + 1) tr by
              simp [cleanupLoop, flagRead, hg, he],
          show cleanupDirs (d :: rest) fs del =
            cleanupDirs rest (removeDirOp fs d) (del ++ [d]) by
              simp [cleanupDirs, hg, he],
          ih, harith, List.length_cons]
      · rw [show cleanupLoop none (d :: rest) fs del p tr =
            cleanupLoop none rest fs del (p + 1) tr by
              simp [cleanupLoop, flagRead, hg, he],
          show cleanupDirs (d :: rest) fs del = cleanupDirs rest fs del by
            simp [cleanupDirs, hg, he],
          ih, harith, List.length_cons]
    · rw [show cleanupLoop none (d :: rest) fs del p tr =
          cleanupLoop none rest fs del (p + 1) tr by
            simp [cleanupLoop, flagRead, hg],
        show cleanupDirs (d :: rest) fs del = cleanupDirs rest fs del by
          simp [cleanupDirs, hg],
        ih, harith, List.length_cons]

theorem deleteLoop_none (delEmpty : Bool) (total : Nat) :
    ∀ (files : List FPath) (idx : Nat) (fs : FS) (succ : List FPath)
      (failed : List (FPath × String)) (par : List FPath) (p s : Nat)
      (tr : List DeleteProgress),
      ∃ tr',
        deleteLoop none sinkLive delEmpty total files idx fs succ failed par
            p s tr =
          .done (processTargets delEmpty files fs succ failed par).1
            (processTargets delEmpty files fs succ failed par).2.1
            (processTargets delEmpty files fs succ failed par).2.2.2
            (processTargets delEmpty files fs succ failed par).2.2.1
            (tr ++ tr') (p + files.length) (s + files.length) ∧
        ∀ ev ∈ tr', deleteTerminal ev = false := by
  intro files
  induction files with
  | nil =>
    intro idx fs succ failed par p s tr
    exact ⟨[], by simp [deleteLoop, processTargets], by simp⟩
  | cons f rest ih =>
    intro idx fs succ failed par p s tr
    have harith : ∀ m : Nat, p + 1 + m = p + (m + 1) := by omega
    have harith' : ∀ m : Nat, s + 1 + m = s + (m + 1) := by omega
    cases hdel : deleteOne fs f with
    | ok fsNew =>
      obtain ⟨tr', hrec, htermr⟩ := ih (idx + 1) fsNew (succ ++ [f]) failed
        (if delEmpty then insertParent par f else par) (p + 1) (s + 1)
        (tr ++ [.progress (idx + 1) total f])
      refine ⟨.progress (idx + 1) total f :: tr', ?_, ?_⟩
      case refine_2 =>
        intro ev hev
        rcases List.mem_cons.mp hev with hev | hev
        · subst hev; rfl
        · exact htermr ev hev
      rw [show deleteLoop none sinkLive delEmpty total (f :: rest) idx fs succ
            failed par p s tr =
          deleteLoop none sinkLive delEmpty total rest (idx + 1) fsNew
            (succ ++ [f]) failed (if delEmpty then insertParent par f else par)
            (p + 1) (s + 1) (tr ++ [.progress (idx + 1) total f]) by
            simp [deleteLoop, flagRead, sinkLive, hdel],
        hrec,
        show processTargets delEmpty (f :: rest) fs succ failed par =
          processTargets delEmpty rest fsNew (succ ++ [f]) failed
            (if delEmpty then insertParent par f else par) by
            simp [processTargets, hdel],
        harith, harith', List.length_cons, List.append_assoc,
        List.singleton_append]
    | error e =>
      obtain ⟨tr', hrec, htermr⟩ := ih (idx + 1) fs succ (failed ++ [(f, e)])
        (if delEmpty then insertParent par f else par) (p + 1) (s + 1)
        (tr ++ [.progress (idx + 1) total f])
      refine ⟨.progress (idx + 1) total f :: tr', ?_, ?_⟩
      case refine_2 =>
        intro ev hev
        rcases List.mem_cons.mp hev with hev | hev
        · subst hev; rfl
        · exact htermr ev hev
      rw [show deleteLoop none sinkLive delEmpty total (f :: rest) idx fs succ
            failed par p s tr =
          deleteLoop none sinkLive delEmpty total rest (idx + 1) fs succ
            (failed ++ [(f, e)]) (if delEmpty then insertParent par f else par)
            (p + 1) (s + 1) (tr ++ [.progress (idx + 1) total f]) by
            simp [deleteLoop, flagRead, sinkLive, hdel],
        hrec,
        show processTargets delEmpty (f :: rest) fs succ failed par =
          processTargets delEmpty rest fs succ (failed ++ [(f, e)])
            (if delEmpty then insertParent par f else par) by
            simp [processTargets, hdel],
        harith, harith', List.length_cons, List.append_assoc,
        List.singleton_append]

/-- **C9.** With cleanup requested (`delete_empty_dirs = true`) and no
cancellation, batch delete gathers exactly the distinct parent directories of
the targets (in `par`), sorts them deepest-first by directory-separator count
and processes them in that order (so `del`, a sublist of the sorted
candidates, is itself deepest-first — bottom-up removal of nested empty
directories), removes a candidate only if it still exists as a directory and
is empty (in particular a removed directory has no child among the remaining
files or directories), and records every removed directory — and only those —
in `deleted_dirs`; the synchronous `batch_delete` and the streaming
`batch_delete_blocking` both return this result. -/
theorem claim_C9 (files : List FPath) (fs : FS) (succ : List FPath)
    (failed : List (FPath × String)) (fs1 : FS) (par : List FPath)
    (h1 : processTargets true files fs [] [] [] = (succ, failed, fs1, par))
    (fs2 : FS) (del : List FPath)
    (h2 : cleanupDirs (sortDirsDesc par) fs1 [] = (fs2, del)) :
    par.Nodup ∧
    (∀ d, d ∈ par ↔ ∃ f ∈ files, parentOf f = some d) ∧
    (batch_delete_blocking files true none sinkLive fs).res =
      .ok ⟨succ, failed, del⟩ ∧
    (batch_delete_blocking files true none sinkLive fs).fs = fs2 ∧
    batch_delete files true fs = (.ok ⟨succ, failed, del⟩, fs2) ∧
    List.Pairwise (fun a b => sepCount b ≤ sepCount a) (sortDirsDesc par) ∧
    List.Perm (sortDirsDesc par) par ∧
    List.Sublist del (sortDirsDesc par) ∧
    List.Pairwise (fun a b => sepCount b ≤ sepCount a) del ∧
    (∀ d ∈ del, d ∈ fs1.dirs) ∧
    fs2.files = fs1.files ∧
    fs2.dirs = fs1.dirs.filter (fun q => decide (q ∉ del)) ∧
    (∀ d ∈ del, ∀ q ∈ fs1.files, isChildOf q d = false) ∧
    (∀ d ∈ del, ∀ q ∈ fs2.dirs, isChildOf q d = false) := by
  have hpar : par = files.foldl insertParent [] := by
    have hp := processTargets_par_eq true files fs [] [] []
    rw [h1] at hp
    simpa using hp
  obtain ⟨nd, e1, e2, e3, e4, e5, e6, e7⟩ :=
    cleanupDirs_spec (sortDirsDesc par) fs1 []
  have hc1 : (cleanupDirs (sortDirsDesc par) fs1 []).1 = fs2 := by rw [h2]
  have hc2 : (cleanupDirs (sortDirsDesc par) fs1 []).2 = del := by rw [h2]
  rw [hc2, List.nil_append] at e1
  subst e1
  rw [hc1] at e3 e5
  replace e7 : ∀ d ∈ del, ∀ q ∈ fs2.dirs, isChildOf q d = false := by
    intro d hd q hq
    exact e7 d hd q (by rw [hc1]; exact hq)
  obtain ⟨tr', hdl, -⟩ :=
    deleteLoop_none true files.length files 0 fs [] [] [] 0 1
      [.started files.length]
  rw [h1] at hdl
  dsimp only at hdl
  have hclean :=
    cleanupLoop_none (sortDirsDesc par) fs1 [] (0 + files.length + 1)
      ([DeleteProgress.started files.length] ++ tr')
  rw [h2] at hclean
  dsimp only at hclean
  have hbb : batch_delete_blocking files true none sinkLive fs =
      { res := .ok ⟨succ, failed, del⟩,
        trace := ([DeleteProgress.started files.length] ++ tr') ++
          [.completed succ.length failed.length],
        polls := 0 + files.length + 1 + (sortDirsDesc par).length,
        fs := fs2 } := by
    rw [batch_delete_blocking]
    rw [if_neg (show ¬ sinkLive 0 = false by simp [sinkLive])]
    rw [hdl]
    dsimp only
    rw [if_neg (show ¬ flagRead none (0 + files.length) = true by
      simp [flagRead])]
    rw [hclean]
    rfl
  have hbd : batch_delete files true fs = (.ok ⟨succ, failed, del⟩, fs2) := by
    rw [batch_delete, h1]
    simp only [if_true]
    rw [h2]
  refine ⟨?_, ?_, by rw [hbb], by rw [hbb], hbd,
    sortDirsDesc_sorted par, sortDirsDesc_perm par, e2,
    (sortDirsDesc_sorted par).sublist e2, e4, e3, e5, e6, e7⟩
  · rw [hpar]
    exact foldl_insertParent_nodup files [] List.nodup_nil
  · intro d
    rw [hpar, foldl_insertParent_mem]
    simp

/-- Witness for C9: deleting the single nested file `r/d/x` with cleanup
enabled removes the now-empty directory `r/d` (spec example scenario 3). -/
theorem claim_C9_witness :
    ([[("r".toList : FName), "d".toList]] : List FPath).Nodup ∧
    (∀ d, d ∈ ([[("r".toList : FName), "d".toList]] : List FPath) ↔
      ∃ f ∈ ([[("r".toList : FName), "d".toList, "x".toList]] : List FPath),
        parentOf f = some d) ∧
    (batch_delete_blocking [["r".toList, "d".toList, "x".toList]] true none
        sinkLive
        ⟨[["r".toList, "d".toList, "x".toList]],
          [["r".toList], ["r".toList, "d".toList]]⟩).res =
      .ok ⟨[["r".toList, "d".toList, "x".toList]], [],
        [["r".toList, "d".toList]]⟩ ∧
    (batch_delete_blocking [["r".toList, "d".toList, "x".toList]] true none
        sinkLive
        ⟨[["r".toList, "d".toList, "x".toList]],
          [["r".toList], ["r".toList, "d".toList]]⟩).fs =
      ⟨[], [["r".toList]]⟩ ∧
    batch_delete [["r".toList, "d".toList, "x".toList]] true
        ⟨[["r".toList, "d".toList, "x".toList]],
          [["r".toList], ["r".toList, "d".toList]]⟩ =
      (.ok ⟨[["r".toList, "d".toList, "x".toList]], [],
        [["r".toList, "d".toList]]⟩, ⟨[], [["r".toList]]⟩) ∧
    List.Pairwise (fun a b => sepCount b ≤ sepCount a)
      (sortDirsDesc [["r".toList, "d".toList]]) ∧
    List.Perm (sortDirsDesc [["r".toList, "d".toList]])
      [["r".toList, "d".toList]] ∧
    List.Sublist [["r".toList, "d".toList]]
      (sortDirsDesc [["r".toList, "d".toList]]) ∧
    List.Pairwise (fun a b => sepCount b ≤ sepCount a)
      [["r".toList, "d".toList]] ∧
    (∀ d ∈ ([[("r".toList : FName), "d".toList]] : List FPath),
      d ∈ [["r".toList], ["r".toList, "d".toList]]) ∧
    ([] : List FPath) = [] ∧
    ([["r".toList]] : List FPath) =
      [["r".toList], ["r".toList, "d".toList]].filter
        (fun q => decide (q ∉ [["r".toList, "d".toList]])) ∧
    (∀ d ∈ ([[("r".toList : FName), "d".toList]] : List FPath),
      ∀ q ∈ ([] : List FPath), isChildOf q d = false) ∧
    (∀ d ∈ ([[("r".toList : FName), "d".toList]] : List FPath),
      ∀ q ∈ ([["r".toList]] : List FPath), isChildOf q d = false) :=
  claim_C9 [["r".toList, "d".toList, "x".toList]]
    ⟨[["r".toList, "d".toList, "x".toList]],
      [["r".toList], ["r".toList, "d".toList]]⟩
    [["r".toList, "d".toList, "x".toList]] [] ⟨[], [["r".toList], ["r".toList, "d".toList]]⟩
    [["r".toList, "d".toList]] (by decide) ⟨[], [["r".toList]]⟩
    [["r".toList, "d".toList]] (by decide)

/-! ### Lemmas: un-cancelled search runs (C8, C5, C4) -/

theorem scanLoop_none (basePath : FPath) :
    ∀ (entries acc : List FsEntry) (lastDir : FPath) (p s : Nat)
      (tr : List SearchProgress),
      ∃ tr' s',
        scanLoop none sinkLive basePath entries acc lastDir p s tr =
          .done (acc ++ entries.filter (fun e => decide (e.path ≠ basePath)))
            (tr ++ tr') (p + entries.length) s' ∧
        ∀ ev ∈ tr', searchTerminal ev = false := by
  intro entries
  induction entries with
  | nil =>
    intro acc lastDir p s tr
    exact ⟨[], s, by simp [scanLoop], by simp⟩
  | cons e rest ih =>
    intro acc lastDir p s tr
    by_cases hb : e.path = basePath
    · obtain ⟨tr', s', hrec, hterm⟩ := ih acc lastDir (p + 1) s tr
      refine ⟨tr', s', ?_, hterm⟩
      rw [show scanLoop none sinkLive basePath (e :: rest) acc lastDir p s tr =
          scanLoop none sinkLive basePath rest acc lastDir (p + 1) s tr by
            simp [scanLoop, flagRead, hb],
        hrec]
      have harith : p + 1 + rest.length = p + (rest.length + 1) := by omega
      rw [harith, List.length_cons,
        show List.filter (fun e => decide (e.path ≠ basePath)) (e :: rest) =
          List.filter (fun e => decide (e.path ≠ basePath)) rest by
            simp [List.filter_cons, hb]]
    · have hfilter :
          List.filter (fun e => decide (e.path ≠ basePath)) (e :: rest) =
            e :: List.filter (fun e => decide (e.path ≠ basePath)) rest := by
        simp [List.filter_cons, hb]
      have hacc : ∀ l, acc ++ [e] ++ l = acc ++ (e :: l) := by
        intro l
        rw [List.append_assoc, List.singleton_append]
      have harith : p + 1 + rest.length = p + (rest.length + 1) := by omega
      by_cases hmod : acc.length % 100 = 0
      · cases hpar : parentOf e.path with
        | some dir =>
          by_cases hdir : dir ≠ lastDir
          · obtain ⟨tr', s', hrec, hterm⟩ := ih (acc ++ [e]) dir (p + 1) (s + 1)
              (tr ++ [.scanning dir acc.length])
            refine ⟨.scanning dir acc.length :: tr', s', ?_, ?_⟩
            · rw [show scanLoop none sinkLive basePath (e :: rest) acc lastDir
                    p s tr =
                  scanLoop none sinkLive basePath rest (acc ++ [e]) dir (p + 1)
                    (s + 1) (tr ++ [.scanning dir acc.length]) by
                    simp [scanLoop, flagRead, hb, hmod, hpar, hdir, sinkLive],
                hrec, hacc, hfilter, harith, List.length_cons,
                List.append_assoc, List.singleton_append]
            · intro ev hev
              rcases List.mem_cons.mp hev with hev | hev
              · subst hev; rfl
              · exact hterm ev hev
          · obtain ⟨tr', s', hrec, hterm⟩ := ih (acc ++ [e]) lastDir (p + 1) s tr
            refine ⟨tr', s', ?_, hterm⟩
            rw [show scanLoop none sinkLive basePath (e :: rest) acc lastDir
                  p s tr =
                scanLoop none sinkLive basePath rest (acc ++ [e]) lastDir
                  (p + 1) s tr by
                  simp [scanLoop, flagRead, hb, hmod, hpar, hdir],
              hrec, hacc, hfilter, harith, List.length_cons]
        | none =>
          obtain ⟨tr', s', hrec, hterm⟩ := ih (acc ++ [e]) lastDir (p + 1) s tr
          refine ⟨tr', s', ?_, hterm⟩
          rw [show scanLoop none sinkLive basePath (e :: rest) acc lastDir
                p s tr =
              scanLoop none sinkLive basePath rest (acc ++ [e]) lastDir (p + 1)
                s tr by
                simp [scanLoop, flagRead, hb, hmod, hpar],
            hrec, hacc, hfilter, harith, List.length_cons]
      · obtain ⟨tr', s', hrec, hterm⟩ := ih (acc ++ [e]) lastDir (p + 1) s tr
        refine ⟨tr', s', ?_, hterm⟩
        rw [show scanLoop none sinkLive basePath (e :: rest) acc lastDir
              p s tr =
            scanLoop none sinkLive basePath rest (acc ++ [e]) lastDir (p + 1)
              s tr by
              simp [scanLoop, flagRead, hb, hmod],
          hrec, hacc, hfilter, harith, List.length_cons]

theorem parallelPhase_none (pat : FName) (pt : PatternType) (cs : Bool)
    (creg : Option (FName → List (Nat × Nat))) :
    ∀ (files : List FsEntry) (p : Nat),
      parallelPhase none pat pt cs creg files p =
        (files.filterMap (parMatchBody pat pt cs creg), p + files.length) := by
  intro files
  induction files with
  | nil => intro p; simp [parallelPhase]
  | cons e rest ih =>
    intro p
    rw [parallelPhase, ih (p + 1)]
    have harith : p + 1 + rest.length = p + (rest.length + 1) := by omega
    rw [show flagRead none p = false from rfl]
    simp only [Bool.false_eq_true, if_false, List.filterMap_cons, harith,
      List.length_cons]
    cases parMatchBody pat pt cs creg e <;> rfl

theorem sfbpLoop_eq (rc : RegexOracle) (basePath : FPath) (pat : FName)
    (pt : PatternType) (cs : Bool) :
    ∀ entries : List FsEntry, (∀ e ∈ entries, e.metadataOk = true) →
      (pt = .regex → (rc (compileArg pat cs)).isOk = true) →
      sfbpLoop rc basePath pat pt cs entries =
        .ok ((entries.filter (fun e => decide (e.path ≠ basePath))).filterMap
          (parMatchBody pat pt cs (cregOf rc pat pt cs))) := by
  intro entries
  induction entries with
  | nil => intro _ _; rfl
  | cons e rest ih =>
    intro hm hr
    have hrest := ih (fun x hx => hm x (List.mem_cons_of_mem e hx)) hr
    by_cases hb : e.path = basePath
    · rw [show sfbpLoop rc basePath pat pt cs (e :: rest) =
            sfbpLoop rc basePath pat pt cs rest by
          simp [sfbpLoop, hb],
        hrest]
      simp [List.filter_cons, hb]
    · have hstep : sfbpLoop rc basePath pat pt cs (e :: rest) =
          match fileName e.path with
          | none => sfbpLoop rc basePath pat pt cs rest
          | some nm =>
            match matchRangesFor rc pat pt cs nm with
            | .error err => .error err
            | .ok none => sfbpLoop rc basePath pat pt cs rest
            | .ok (some ranges) =>
              if e.metadataOk then
                match sfbpLoop rc basePath pat pt cs rest with
                | .error err => .error err
                | .ok tail =>
                    .ok (⟨e.path, nm, ranges, e.size, e.isDirectory⟩ :: tail)
              else .error "metadata error" := by
        simp [sfbpLoop, hb]
      have hfilter :
          List.filter (fun x => decide (x.path ≠ basePath)) (e :: rest) =
            e :: List.filter (fun x => decide (x.path ≠ basePath)) rest := by
        simp [List.filter_cons, hb]
      rw [hstep, hfilter, List.filterMap_cons]
      cases hnm : fileName e.path with
      | none =>
        have hpm : parMatchBody pat pt cs (cregOf rc pat pt cs) e = none := by
          rw [parMatchBody, hnm]
        rw [hpm]
        dsimp only
        exact hrest
      | some nm =>
        dsimp only
        have hme : e.metadataOk = true := hm e (List.mem_cons_self e rest)
        cases pt with
        | regex =>
          rcases hok : rc (compileArg pat cs) with err | r
          · rw [hok] at hr
            have hcontra := hr rfl
            simp [Except.isOk, Except.toBool] at hcontra
          · by_cases hemp : (r nm).isEmpty = true
            · have hmr : matchRangesFor rc pat .regex cs nm = .ok none := by
                rw [matchRangesFor, match_regex, hok]
                simp [hemp]
              have hpm : parMatchBody pat .regex cs
                  (cregOf rc pat .regex cs) e = none := by
                rw [parMatchBody, hnm, cregOf, hok]
                simp [Except.toOption, hemp]
              rw [hmr, hpm]
              dsimp only
              exact hrest
            · have hmr : matchRangesFor rc pat .regex cs nm =
                  .ok (some (r nm)) := by
                rw [matchRangesFor, match_regex, hok]
                simp [hemp]
              have hpm : parMatchBody pat .regex cs
                  (cregOf rc pat .regex cs) e =
                  some ⟨e.path, nm, r nm, e.size, e.isDirectory⟩ := by
                rw [parMatchBody, hnm, cregOf, hok]
                simp [Except.toOption, hemp, hme]
              rw [hmr, hpm]
              dsimp only
              rw [if_pos hme, hrest]
        | simple =>
          cases hms : match_simple nm pat cs with
          | none =>
            have hmr : matchRangesFor rc pat .simple cs nm = .ok none := by
              rw [matchRangesFor, hms]
            have hpm : parMatchBody pat .simple cs
                (cregOf rc pat .simple cs) e = none := by
              rw [parMatchBody, hnm]
              dsimp only
              rw [hms]
            rw [hmr, hpm]
            dsimp only
            exact hrest
          | some ranges =>
            have hmr : matchRangesFor rc pat .simple cs nm =
                .ok (some ranges) := by
              rw [matchRangesFor, hms]
            have hpm : parMatchBody pat .simple cs
                (cregOf rc pat .simple cs) e =
                some ⟨e.path, nm, ranges, e.size, e.isDirectory⟩ := by
              rw [parMatchBody, hnm]
              dsimp only
              rw [hms]
              dsimp only
              rw [if_pos hme]
            rw [hmr, hpm]
            dsimp only
            rw [if_pos hme, hrest]
        | extension =>
          cases hms : match_extension nm pat cs with
          | none =>
            have hmr : matchRangesFor rc pat .extension cs nm = .ok none := by
              rw [matchRangesFor, hms]
            have hpm : parMatchBody pat .extension cs
                (cregOf rc pat .extension cs) e = none := by
              rw [parMatchBody, hnm]
              dsimp only
              rw [hms]
            rw [hmr, hpm]
            dsimp only
            exact hrest
          | some ranges =>
            have hmr : matchRangesFor rc pat .extension cs nm =
                .ok (some ranges) := by
              rw [matchRangesFor, hms]
            have hpm : parMatchBody pat .extension cs
                (cregOf rc pat .extension cs) e =
                some ⟨e.path, nm, ranges, e.size, e.isDirectory⟩ := by
              rw [parMatchBody, hnm]
              dsimp only
              rw [hms]
              dsimp only
              rw [if_pos hme]
            rw [hmr, hpm]
            dsimp only
            rw [if_pos hme, hrest]


/-- **C8.** For every scanned entry set and every valid pattern (non-empty,
and compiling when in regex mode), with the cancellation flag never set and
with every metadata fetch succeeding, the streaming pipeline's parallel
matching phase produces exactly the same `FileMatchResult` list as the
synchronous `search_files_by_pattern` evaluating the same predicate
sequentially over the same entries — in particular the two result *sets* are
equal (here even the order coincides). -/
theorem claim_C8 (rc : RegexOracle) (basePath : FPath) (entries : List FsEntry)
    (pat : FName) (pt : PatternType) (cs : Bool)
    (hp : (trimName pat).isEmpty = false)
    (hm : ∀ e ∈ entries, e.metadataOk = true)
    (hr : pt = .regex → (rc (compileArg pat cs)).isOk = true) :
    ∃ l,
      search_files_by_pattern rc basePath entries pat pt cs = .ok l ∧
      (search_files_blocking rc basePath entries pat pt cs none sinkLive).res =
        .ok l := by
  refine ⟨(entries.filter (fun e => decide (e.path ≠ basePath))).filterMap
    (parMatchBody pat pt cs (cregOf rc pat pt cs)), ?_, ?_⟩
  · rw [search_files_by_pattern, if_neg (by simp [hp])]
    exact sfbpLoop_eq rc basePath pat pt cs entries hm hr
  · have hfr : ∀ m, ¬ flagRead none m = true := by
      intro m
      simp [flagRead]
    have hcreg : (if pt = PatternType.regex then
          (rc (compileArg pat cs)).map some else .ok none) =
        Except.ok (cregOf rc pat pt cs) := by
      cases pt with
      | regex =>
        rcases hok : rc (compileArg pat cs) with err | r
        · rw [hok] at hr
          have hcontra := hr rfl
          simp [Except.isOk, Except.toBool] at hcontra
        · rw [if_pos rfl]
          simp only [cregOf, hok, Except.toOption]
          rfl
      | simple =>
        rw [if_neg (by decide)]
        rfl
      | extension =>
        rw [if_neg (by decide)]
        rfl
    obtain ⟨tr', s', hscan, hterm⟩ :=
      scanLoop_none basePath entries [] [] 0 1 [.started basePath]
    rw [search_files_blocking]
    rw [if_neg (show ¬ sinkLive 0 = false by simp [sinkLive])]
    rw [hscan]
    dsimp only
    rw [if_neg (hfr _)]
    rw [if_neg (show ¬ sinkLive s' = false by simp [sinkLive])]
    rw [hcreg]
    dsimp only
    rw [show ([] : List FsEntry) ++
        entries.filter (fun e => decide (e.path ≠ basePath)) =
        entries.filter (fun e => decide (e.path ≠ basePath)) from
      List.nil_append _]
    rw [parallelPhase_none]
    dsimp only
    rw [if_neg (hfr _)]

/-- Witness for C8: one entry `r/a.txt` under base `r`, simple pattern `"a"`,
case-sensitive. -/
theorem claim_C8_witness :
    ∃ l,
      search_files_by_pattern emptyOracle [['r']]
        [⟨[['r'], ['a']], 3, false, true⟩] ['a'] .simple true = .ok l ∧
      (search_files_blocking emptyOracle [['r']]
        [⟨[['r'], ['a']], 3, false, true⟩] ['a'] .simple true none
        sinkLive).res = .ok l :=
  claim_C8 emptyOracle [['r']] [⟨[['r'], ['a']], 3, false, true⟩] ['a']
    .simple true (by decide) (by decide)
    (fun h => PatternType.noConfusion h)

/-! ### Lemmas: cancelled and live-sink runs of the scan loop (C2, C5) -/

theorem scanLoop_cancel (n : Nat) (basePath : FPath) :
    ∀ (entries acc : List FsEntry) (lastDir : FPath) (p s : Nat)
      (tr : List SearchProgress), p ≤ n → n < p + entries.length →
      ∃ mids,
        scanLoop (some n) sinkLive basePath entries acc lastDir p s tr =
          .abort (tr ++ mids ++ [.cancelled]) (n + 1) ∧
        ∀ ev ∈ mids, searchTerminal ev = false := by
  intro entries
  induction entries with
  | nil =>
    intro acc lastDir p s tr hpn hlt
    simp only [List.length_nil] at hlt
    omega
  | cons e rest ih =>
    intro acc lastDir p s tr hpn hlt
    by_cases hnp : n ≤ p
    · have hnp' : n = p := by omega
      subst hnp'
      refine ⟨[], ?_, by simp⟩
      rw [show scanLoop (some n) sinkLive basePath (e :: rest) acc lastDir
            n s tr = .abort (tr ++ [.cancelled]) (n + 1) by
          simp [scanLoop, flagRead],
        List.append_nil]
    · have hfr : flagRead (some n) p = false := by
        simp [flagRead]
        omega
      have hpn1 : p + 1 ≤ n := by omega
      have hlt1 : n < p + 1 + rest.length := by
        simp only [List.length_cons] at hlt
        omega
      by_cases hb : e.path = basePath
      · obtain ⟨mids, hrec, hterm⟩ := ih acc lastDir (p + 1) s tr hpn1 hlt1
        refine ⟨mids, ?_, hterm⟩
        rw [show scanLoop (some n) sinkLive basePath (e :: rest) acc lastDir
              p s tr =
            scanLoop (some n) sinkLive basePath rest acc lastDir (p + 1) s tr
            by simp [scanLoop, hfr, hb],
          hrec]
      · by_cases hmod : acc.length % 100 = 0
        · cases hpar : parentOf e.path with
          | some dir =>
            by_cases hdir : dir ≠ lastDir
            · obtain ⟨mids, hrec, hterm⟩ := ih (acc ++ [e]) dir (p + 1) (s + 1)
                (tr ++ [.scanning dir acc.length]) hpn1 hlt1
              refine ⟨.scanning dir acc.length :: mids, ?_, ?_⟩
              · rw [show scanLoop (some n) sinkLive basePath (e :: rest) acc
                      lastDir p s tr =
                    scanLoop (some n) sinkLive basePath rest (acc ++ [e]) dir
                      (p + 1) (s + 1) (tr ++ [.scanning dir acc.length]) by
                      simp [scanLoop, hfr, hb, hmod, hpar, hdir, sinkLive],
                  hrec]
                congr 1
                simp
              · intro ev hev
                rcases List.mem_cons.mp hev with hev | hev
                · subst hev; rfl
                · exact hterm ev hev
            · obtain ⟨mids, hrec, hterm⟩ :=
                ih (acc ++ [e]) lastDir (p + 1) s tr hpn1 hlt1
              refine ⟨mids, ?_, hterm⟩
              rw [show scanLoop (some n) sinkLive basePath (e :: rest) acc
                    lastDir p s tr =
                  scanLoop (some n) sinkLive basePath rest (acc ++ [e]) lastDir
                    (p + 1) s tr by
                    simp [scanLoop, hfr, hb, hmod, hpar, hdir],
                hrec]
          | none =>
            obtain ⟨mids, hrec, hterm⟩ :=
              ih (acc ++ [e]) lastDir (p + 1) s tr hpn1 hlt1
            refine ⟨mids, ?_, hterm⟩
            rw [show scanLoop (some n) sinkLive basePath (e :: rest) acc
                  lastDir p s tr =
                scanLoop (some n) sinkLive basePath rest (acc ++ [e]) lastDir
                  (p + 1) s tr by
                  simp [scanLoop, hfr, hb, hmod, hpar],
              hrec]
        · obtain ⟨mids, hrec, hterm⟩ :=
            ih (acc ++ [e]) lastDir (p + 1) s tr hpn1 hlt1
          refine ⟨mids, ?_, hterm⟩
          rw [show scanLoop (some n) sinkLive basePath (e :: rest) acc lastDir
                p s tr =
              scanLoop (some n) sinkLive basePath rest (acc ++ [e]) lastDir
                (p + 1) s tr by
                simp [scanLoop, hfr, hb, hmod],
            hrec]

theorem scanLoop_no_cancel (n : Nat) (basePath : FPath) :
    ∀ (entries acc : List FsEntry) (lastDir : FPath) (p s : Nat)
      (tr : List SearchProgress), p + entries.length ≤ n →
      scanLoop (some n) sinkLive basePath entries acc lastDir p s tr =
        scanLoop none sinkLive basePath entries acc lastDir p s tr := by
  intro entries
  induction entries with
  | nil => intro acc lastDir p s tr _; rfl
  | cons e rest ih =>
    intro acc lastDir p s tr hle
    simp only [List.length_cons] at hle
    have hfr : flagRead (some n) p = false := by
      simp [flagRead]
      omega
    have hle1 : p + 1 + rest.length ≤ n := by omega
    rw [scanLoop, scanLoop, hfr]
    simp only [Bool.false_eq_true, if_false]
    rw [show flagRead none p = false from rfl]
    simp only [Bool.false_eq_true, if_false]
    by_cases hb : e.path = basePath
    · rw [if_pos hb, if_pos hb]
      exact ih acc lastDir (p + 1) s tr hle1
    · rw [if_neg hb, if_neg hb]
      by_cases hmod : acc.length % 100 = 0
      · rw [if_pos hmod, if_pos hmod]
        cases hpar : parentOf e.path with
        | some dir =>
          dsimp only
          by_cases hdir : dir ≠ lastDir
          · rw [if_pos hdir, if_pos hdir,
              if_pos (show sinkLive s = true from rfl)]
            exact ih (acc ++ [e]) dir (p + 1) (s + 1)
              (tr ++ [.scanning dir acc.length]) hle1
          · rw [if_neg hdir, if_neg hdir]
            exact ih (acc ++ [e]) lastDir (p + 1) s tr hle1
        | none => exact ih (acc ++ [e]) lastDir (p + 1) s tr hle1
      · rw [if_neg hmod, if_neg hmod]
        exact ih (acc ++ [e]) lastDir (p + 1) s tr hle1

theorem parallelPhase_polls (cancelAt : Option Nat) (pat : FName)
    (pt : PatternType) (cs : Bool) (creg : Option (FName → List (Nat × Nat))) :
    ∀ (files : List FsEntry) (p : Nat),
      (parallelPhase cancelAt pat pt cs creg files p).2 = p + files.length := by
  intro files
  induction files with
  | nil => intro p; rfl
  | cons e rest ih =>
    intro p
    rw [parallelPhase]
    dsimp only
    rw [ih (p + 1)]
    simp only [List.length_cons]
    omega

theorem getLast_concat_cancelled (l : List SearchProgress) :
    (l ++ [SearchProgress.cancelled]).getLast? = some .cancelled := by
  simp

theorem getLast_concat_dcancelled (l : List DeleteProgress) :
    (l ++ [DeleteProgress.cancelled]).getLast? = some .cancelled := by
  simp

theorem search_blocking_cancel (rc : RegexOracle) (basePath : FPath)
    (entries : List FsEntry) (pat : FName) (pt : PatternType) (cs : Bool)
    (n : Nat)
    (h : n < (search_files_blocking rc basePath entries pat pt cs (some n)
      sinkLive).polls) :
    (search_files_blocking rc basePath entries pat pt cs (some n)
      sinkLive).res = .ok [] ∧
    (search_files_blocking rc basePath entries pat pt cs (some n)
      sinkLive).trace.getLast? = some .cancelled := by
  have hsink0 : ¬ sinkLive 0 = false := by simp [sinkLive]
  by_cases hcase : n < entries.length
  · obtain ⟨mids, habort, hterm⟩ :=
      scanLoop_cancel n basePath entries [] [] 0 1 [.started basePath]
        (by omega) (by omega)
    have hrun : search_files_blocking rc basePath entries pat pt cs (some n)
        sinkLive =
        ⟨.ok [], [SearchProgress.started basePath] ++ mids ++ [.cancelled],
          n + 1⟩ := by
      rw [search_files_blocking, if_neg hsink0, habort]
    rw [hrun]
    refine ⟨rfl, ?_⟩
    rw [show [SearchProgress.started basePath] ++ mids ++ [.cancelled] =
        ([SearchProgress.started basePath] ++ mids) ++ [.cancelled] by
      simp [List.append_assoc]]
    exact getLast_concat_cancelled _
  · push_neg at hcase
    have hnos := scanLoop_no_cancel n basePath entries [] [] 0 1
      [.started basePath] (by omega)
    obtain ⟨tr', s', hscan, htermscan⟩ :=
      scanLoop_none basePath entries [] [] 0 1 [.started basePath]
    by_cases hn : n ≤ 0 + entries.length
    · have hfr : flagRead (some n) (0 + entries.length) = true := by
        simp [flagRead]
        omega
      have hrun : search_files_blocking rc basePath entries pat pt cs (some n)
          sinkLive =
          ⟨.ok [], ([SearchProgress.started basePath] ++ tr') ++ [.cancelled],
            0 + entries.length + 1⟩ := by
        rw [search_files_blocking, if_neg hsink0, hnos, hscan]
        dsimp only
        rw [if_pos hfr]
      rw [hrun]
      exact ⟨rfl, getLast_concat_cancelled _⟩
    · push_neg at hn
      have hfr : flagRead (some n) (0 + entries.length) = false := by
        simp [flagRead]
        omega
      have hsinks : ¬ sinkLive s' = false := by simp [sinkLive]
      rcases hcomp : (if pt = PatternType.regex then
          (rc (compileArg pat cs)).map some else .ok none) with err | creg
      · have hrun : search_files_blocking rc basePath entries pat pt cs
            (some n) sinkLive =
            ⟨.error err, ([SearchProgress.started basePath] ++ tr') ++
              [.matching (([] : List FsEntry) ++
                entries.filter (fun e => decide (e.path ≠ basePath))).length],
              0 + entries.length + 1⟩ := by
          rw [search_files_blocking, if_neg hsink0, hnos, hscan]
          dsimp only
          rw [if_neg (by rw [hfr]; exact Bool.false_ne_true), if_neg hsinks,
            hcomp]
        rw [hrun] at h
        simp only at h
        omega
      · have hpolls := parallelPhase_polls (some n) pat pt cs creg
          (([] : List FsEntry) ++
            entries.filter (fun e => decide (e.path ≠ basePath)))
          (0 + entries.length + 1)
        by_cases hfin : flagRead (some n)
            ((parallelPhase (some n) pat pt cs creg
              (([] : List FsEntry) ++
                entries.filter (fun e => decide (e.path ≠ basePath)))
              (0 + entries.length + 1)).2) = true
        · have hrun : search_files_blocking rc basePath entries pat pt cs
              (some n) sinkLive =
              ⟨.ok [], ([SearchProgress.started basePath] ++ tr') ++
                [.matching (([] : List FsEntry) ++
                  entries.filter (fun e => decide (e.path ≠ basePath))).length,
                  .cancelled],
                (parallelPhase (some n) pat pt cs creg
                  (([] : List FsEntry) ++
                    entries.filter (fun e => decide (e.path ≠ basePath)))
                  (0 + entries.length + 1)).2 + 1⟩ := by
            rw [search_files_blocking, if_neg hsink0, hnos, hscan]
            dsimp only
            rw [if_neg (by rw [hfr]; exact Bool.false_ne_true), if_neg hsinks,
              hcomp]
            dsimp only
            rw [if_pos hfin]
          rw [hrun]
          refine ⟨rfl, ?_⟩
          rw [show ∀ a b : SearchProgress,
              ([SearchProgress.started basePath] ++ tr') ++ [a, b] =
              (([SearchProgress.started basePath] ++ tr') ++ [a]) ++ [b] from
            fun a b => by simp]
          exact getLast_concat_cancelled _
        · have hrun : search_files_blocking rc basePath entries pat pt cs
              (some n) sinkLive =
              ⟨.ok (parallelPhase (some n) pat pt cs creg
                  (([] : List FsEntry) ++
                    entries.filter (fun e => decide (e.path ≠ basePath)))
                  (0 + entries.length + 1)).1,
                ([SearchProgress.started basePath] ++ tr') ++
                [.matching (([] : List FsEntry) ++
                  entries.filter (fun e => decide (e.path ≠ basePath))).length,
                  .completed (parallelPhase (some n) pat pt cs creg
                    (([] : List FsEntry) ++
                      entries.filter (fun e => decide (e.path ≠ basePath)))
                    (0 + entries.length + 1)).1.length],
                (parallelPhase (some n) pat pt cs creg
                  (([] : List FsEntry) ++
                    entries.filter (fun e => decide (e.path ≠ basePath)))
                  (0 + entries.length + 1)).2 + 1⟩ := by
            rw [search_files_blocking, if_neg hsink0, hnos, hscan]
            dsimp only
            rw [if_neg (by rw [hfr]; exact Bool.false_ne_true), if_neg hsinks,
              hcomp]
            dsimp only
            rw [if_neg hfin]
          rw [hrun] at h
          dsimp only at h
          refine absurd ?_ hfin
          simp only [flagRead, decide_eq_true_eq]
          omega

/-! ### Lemmas: cancelled runs of the delete loops (C2) -/

theorem deleteLoop_cancel (n : Nat) (delEmpty : Bool) (total : Nat) :
    ∀ (files : List FPath) (idx : Nat) (fs : FS) (succ : List FPath)
      (failed : List (FPath × String)) (par : List FPath) (p s : Nat)
      (tr : List DeleteProgress), p ≤ n → n < p + files.length →
      ∃ mids,
        deleteLoop (some n) sinkLive delEmpty total files idx fs succ failed
            par p s tr =
          .abort
            (processTargets delEmpty (files.take (n - p)) fs succ failed par).1
            (processTargets delEmpty (files.take (n - p)) fs succ failed
              par).2.1
            (processTargets delEmpty (files.take (n - p)) fs succ failed
              par).2.2.1
            (tr ++ mids ++ [.cancelled]) (n + 1) ∧
        ∀ ev ∈ mids, deleteTerminal ev = false := by
  intro files
  induction files with
  | nil =>
    intro idx fs succ failed par p s tr hpn hlt
    simp only [List.length_nil] at hlt
    omega
  | cons f rest ih =>
    intro idx fs succ failed par p s tr hpn hlt
    by_cases hnp : n ≤ p
    · have hnp' : n = p := by omega
      subst hnp'
      refine ⟨[], ?_, by simp⟩
      rw [show deleteLoop (some n) sinkLive delEmpty total (f :: rest) idx fs
            succ failed par n s tr =
          .abort succ failed fs (tr ++ [.cancelled]) (n + 1) by
            simp [deleteLoop, flagRead],
        List.append_nil]
      rw [show n - n = 0 from by omega]
      rfl
    · have hfr : flagRead (some n) p = false := by
        simp [flagRead]
        omega
      have hpn1 : p + 1 ≤ n := by omega
      have hlt1 : n < p + 1 + rest.length := by
        simp only [List.length_cons] at hlt
        omega
      have htake : (f :: rest).take (n - p) =
          f :: rest.take (n - (p + 1)) := by
        rw [show n - p = (n - (p + 1)) + 1 from by omega, List.take_succ_cons]
      cases hdel : deleteOne fs f with
      | ok fsNew =>
        obtain ⟨mids, hrec, hterm⟩ := ih (idx + 1) fsNew (succ ++ [f]) failed
          (if delEmpty then insertParent par f else par) (p + 1) (s + 1)
          (tr ++ [.progress (idx + 1) total f]) hpn1 hlt1
        refine ⟨.progress (idx + 1) total f :: mids, ?_, ?_⟩
        · rw [show deleteLoop (some n) sinkLive delEmpty total (f :: rest) idx
                fs succ failed par p s tr =
              deleteLoop (some n) sinkLive delEmpty total rest (idx + 1) fsNew
                (succ ++ [f]) failed
                (if delEmpty then insertParent par f else par) (p + 1) (s + 1)
                (tr ++ [.progress (idx + 1) total f]) by
              simp [deleteLoop, hfr, hdel, sinkLive],
            hrec, htake,
            show processTargets delEmpty (f :: rest.take (n - (p + 1))) fs succ
                failed par =
              processTargets delEmpty (rest.take (n - (p + 1))) fsNew
                (succ ++ [f]) failed
                (if delEmpty then insertParent par f else par) by
              simp [processTargets, hdel]]
          congr 1
          simp
        · intro ev hev
          rcases List.mem_cons.mp hev with hev | hev
          · subst hev; rfl
          · exact hterm ev hev
      | error err =>
        obtain ⟨mids, hrec, hterm⟩ := ih (idx + 1) fs succ
          (failed ++ [(f, err)])
          (if delEmpty then insertParent par f else par) (p + 1) (s + 1)
          (tr ++ [.progress (idx + 1) total f]) hpn1 hlt1
        refine ⟨.progress (idx + 1) total f :: mids, ?_, ?_⟩
        · rw [show deleteLoop (some n) sinkLive delEmpty total (f :: rest) idx
                fs succ failed par p s tr =
              deleteLoop (some n) sinkLive delEmpty total rest (idx + 1) fs
                succ (failed ++ [(f, err)])
                (if delEmpty then insertParent par f else par) (p + 1) (s + 1)
                (tr ++ [.progress (idx + 1) total f]) by
              simp [deleteLoop, hfr, hdel, sinkLive],
            hrec, htake,
            show processTargets delEmpty (f :: rest.take (n - (p + 1))) fs succ
                failed par =
              processTargets delEmpty (rest.take (n - (p + 1))) fs succ
                (failed ++ [(f, err)])
                (if delEmpty then insertParent par f else par) by
              simp [processTargets, hdel]]
          congr 1
          simp
        · intro ev hev
          rcases List.mem_cons.mp hev with hev | hev
          · subst hev; rfl
          · exact hterm ev hev

theorem deleteLoop_no_cancel (n : Nat) (delEmpty : Bool) (total : Nat) :
    ∀ (files : List FPath) (idx : Nat) (fs : FS) (succ : List FPath)
      (failed : List (FPath × String)) (par : List FPath) (p s : Nat)
      (tr : List DeleteProgress), p + files.length ≤ n →
      deleteLoop (some n) sinkLive delEmpty total files idx fs succ failed par
          p s tr =
        deleteLoop none sinkLive delEmpty total files idx fs succ failed par
          p s tr := by
  intro files
  induction files with
  | nil => intro idx fs succ failed par p s tr _; rfl
  | cons f rest ih =>
    intro idx fs succ failed par p s tr hle
    simp only [List.length_cons] at hle
    have hfr : flagRead (some n) p = false := by
      simp [flagRead]
      omega
    have hle1 : p + 1 + rest.length ≤ n := by omega
    cases hdel : deleteOne fs f with
    | ok fsNew =>
      rw [show deleteLoop (some n) sinkLive delEmpty total (f :: rest) idx fs
            succ failed par p s tr =
          deleteLoop (some n) sinkLive delEmpty total rest (idx + 1) fsNew
            (succ ++ [f]) failed (if delEmpty then insertParent par f else par)
            (p + 1) (s + 1) (tr ++ [.progress (idx + 1) total f]) by
          simp [deleteLoop, hfr, hdel, sinkLive],
        show deleteLoop none sinkLive delEmpty total (f :: rest) idx fs succ
            failed par p s tr =
          deleteLoop none sinkLive delEmpty total rest (idx + 1) fsNew
            (succ ++ [f]) failed (if delEmpty then insertParent par f else par)
            (p + 1) (s + 1) (tr ++ [.progress (idx + 1) total f]) by
          simp [deleteLoop, flagRead, hdel, sinkLive]]
      exact ih (idx + 1) fsNew (succ ++ [f]) failed _ (p + 1) (s + 1) _ hle1
    | error err =>
      rw [show deleteLoop (some n) sinkLive delEmpty total (f :: rest) idx fs
            succ failed par p s tr =
          deleteLoop (some n) sinkLive delEmpty total rest (idx + 1) fs succ
            (failed ++ [(f, err)])
            (if delEmpty then insertParent par f else par)
            (p + 1) (s + 1) (tr ++ [.progress (idx + 1) total f]) by
          simp [deleteLoop, hfr, hdel, sinkLive],
        show deleteLoop none sinkLive delEmpty total (f :: rest) idx fs succ
            failed par p s tr =
          deleteLoop none sinkLive delEmpty total rest (idx + 1) fs succ
            (failed ++ [(f, err)])
            (if delEmpty then insertParent par f else par)
            (p + 1) (s + 1) (tr ++ [.progress (idx + 1) total f]) by
          simp [deleteLoop, flagRead, hdel, sinkLive]]
      exact ih (idx + 1) fs succ _ _ (p + 1) (s + 1) _ hle1

theorem cleanupLoop_cancel (n : Nat) :
    ∀ (ds : List FPath) (fs : FS) (del : List FPath) (p : Nat)
      (tr : List DeleteProgress), p ≤ n → n < p + ds.length →
      cleanupLoop (some n) ds fs del p tr =
        .abort (cleanupDirs (ds.take (n - p)) fs del).1
          (cleanupDirs (ds.take (n - p)) fs del).2
          (tr ++ [.cancelled]) (n + 1) := by
  intro ds
  induction ds with
  | nil =>
    intro fs del p tr hpn hlt
    simp only [List.length_nil] at hlt
    omega
  | cons d rest ih =>
    intro fs del p tr hpn hlt
    by_cases hnp : n ≤ p
    · have hnp' : n = p := by omega
      subst hnp'
      rw [show cleanupLoop (some n) (d :: rest) fs del n tr =
          .abort fs del (tr ++ [.cancelled]) (n + 1) by
          simp [cleanupLoop, flagRead],
        show n - n = 0 from by omega]
      rfl
    · have hfr : flagRead (some n) p = false := by
        simp [flagRead]
        omega
      have hpn1 : p + 1 ≤ n := by omega
      have hlt1 : n < p + 1 + rest.length := by
        simp only [List.length_cons] at hlt
        omega
      have htake : (d :: rest).take (n - p) =
          d :: rest.take (n - (p + 1)) := by
        rw [show n - p = (n - (p + 1)) + 1 from by omega, List.take_succ_cons]
      by_cases hg : (d ∈ fs.files ∨ d ∈ fs.dirs) ∧ d ∈ fs.dirs
      · by_cases he : dirIsEmpty fs d = true
        · rw [show cleanupLoop (some n) (d :: rest) fs del p tr =
              cleanupLoop (some n) rest (removeDirOp fs d) (del ++ [d]) (p + 1)
                tr by simp [cleanupLoop, hfr, hg, he],
            ih (removeDirOp fs d) (del ++ [d]) (p + 1) tr hpn1 hlt1, htake,
            show cleanupDirs (d :: rest.take (n - (p + 1))) fs del =
              cleanupDirs (rest.take (n - (p + 1))) (removeDirOp fs d)
                (del ++ [d]) by simp [cleanupDirs, hg, he]]
        · rw [show cleanupLoop (some n) (d :: rest) fs del p tr =
              cleanupLoop (some n) rest fs del (p + 1) tr by
              simp [cleanupLoop, hfr, hg, he],
            ih fs del (p + 1) tr hpn1 hlt1, htake,
            show cleanupDirs (d :: rest.take (n - (p + 1))) fs del =
              cleanupDirs (rest.take (n - (p + 1))) fs del by
              simp [cleanupDirs, hg, he]]
      · rw [show cleanupLoop (some n) (d :: rest) fs del p tr =
            cleanupLoop (some n) rest fs del (p + 1) tr by
            simp [cleanupLoop, hfr, hg],
          ih fs del (p + 1) tr hpn1 hlt1, htake,
          show cleanupDirs (d :: rest.take (n - (p + 1))) fs del =
            cleanupDirs (rest.take (n - (p + 1))) fs del by
            simp [cleanupDirs, hg]]

theorem cleanupLoop_no_cancel (n : Nat) :
    ∀ (ds : List FPath) (fs : FS) (del : List FPath) (p : Nat)
      (tr : List DeleteProgress), p + ds.length ≤ n →
      cleanupLoop (some n) ds fs del p tr = cleanupLoop none ds fs del p tr := by
  intro ds
  induction ds with
  | nil => intro fs del p tr _; rfl
  | cons d rest ih =>
    intro fs del p tr hle
    simp only [List.length_cons] at hle
    have hfr : flagRead (some n) p = false := by
      simp [flagRead]
      omega
    have hle1 : p + 1 + rest.length ≤ n := by omega
    by_cases hg : (d ∈ fs.files ∨ d ∈ fs.dirs) ∧ d ∈ fs.dirs
    · by_cases he : dirIsEmpty fs d = true
      · rw [show cleanupLoop (some n) (d :: rest) fs del p tr =
            cleanupLoop (some n) rest (removeDirOp fs d) (del ++ [d]) (p + 1)
              tr by simp [cleanupLoop, hfr, hg, he],
          show cleanupLoop none (d :: rest) fs del p tr =
            cleanupLoop none rest (removeDirOp fs d) (del ++ [d]) (p + 1) tr by
            simp [cleanupLoop, flagRead, hg, he]]
        exact ih (removeDirOp fs d) (del ++ [d]) (p + 1) tr hle1
      · rw [show cleanupLoop (some n) (d :: rest) fs del p tr =
            cleanupLoop (some n) rest fs del (p + 1) tr by
            simp [cleanupLoop, hfr, hg, he],
          show cleanupLoop none (d :: rest) fs del p tr =
            cleanupLoop none rest fs del (p + 1) tr by
            simp [cleanupLoop, flagRead, hg, he]]
        exact ih fs del (p + 1) tr hle1
    · rw [show cleanupLoop (some n) (d :: rest) fs del p tr =
          cleanupLoop (some n) rest fs del (p + 1) tr by
          simp [cleanupLoop, hfr, hg],
        show cleanupLoop none (d :: rest) fs del p tr =
          cleanupLoop none rest fs del (p + 1) tr by
          simp [cleanupLoop, flagRead, hg]]
      exact ih fs del (p + 1) tr hle1

theorem delete_blocking_cancel (files : List FPath) (delEmpty : Bool)
    (fs : FS) (n : Nat)
    (h : n < (batch_delete_blocking files delEmpty (some n) sinkLive fs).polls)
    (hne : n ≠ files.length) :
    (batch_delete_blocking files delEmpty (some n) sinkLive
      fs).trace.getLast? = some .cancelled ∧
    ∃ k j, k ≤ files.length ∧ (k < files.length → j = 0) ∧
      (batch_delete_blocking files delEmpty (some n) sinkLive fs).res =
        .ok ⟨(processTargets delEmpty (files.take k) fs [] [] []).1,
          (processTargets delEmpty (files.take k) fs [] [] []).2.1,
          (cleanupDirs ((sortDirsDesc
              (processTargets delEmpty (files.take k) fs [] [] []).2.2.2).take
              j)
            (processTargets delEmpty (files.take k) fs [] [] []).2.2.1 []).2⟩ := by
  have hsink0 : ¬ sinkLive 0 = false := by simp [sinkLive]
  by_cases hcase : n < files.length
  · obtain ⟨mids, habort, hterm⟩ :=
      deleteLoop_cancel n delEmpty files.length files 0 fs [] [] [] 0 1
        [.started files.length] (by omega) (by omega)
    rw [show n - 0 = n from by omega] at habort
    have hrun : batch_delete_blocking files delEmpty (some n) sinkLive fs =
        ⟨.ok ⟨(processTargets delEmpty (files.take n) fs [] [] []).1,
            (processTargets delEmpty (files.take n) fs [] [] []).2.1, []⟩,
          [DeleteProgress.started files.length] ++ mids ++ [.cancelled], n + 1,
          (processTargets delEmpty (files.take n) fs [] [] []).2.2.1⟩ := by
      rw [batch_delete_blocking, if_neg hsink0, habort]
    rw [hrun]
    constructor
    · rw [show [DeleteProgress.started files.length] ++ mids ++ [.cancelled] =
          ([DeleteProgress.started files.length] ++ mids) ++ [.cancelled] by
        simp [List.append_assoc]]
      exact getLast_concat_dcancelled _
    · exact ⟨n, 0, by omega, fun _ => rfl, rfl⟩
  · push_neg at hcase
    have hgt : files.length < n := by omega
    have hnoc := deleteLoop_no_cancel n delEmpty files.length files 0 fs [] []
      [] 0 1 [.started files.length] (by omega)
    obtain ⟨tr', hdone, -⟩ := deleteLoop_none delEmpty files.length files 0 fs
      [] [] [] 0 1 [.started files.length]
    cases hde : delEmpty with
    | false =>
      rw [hde] at hnoc hdone
      have hrun : batch_delete_blocking files false (some n) sinkLive fs =
          ⟨.ok ⟨(processTargets false files fs [] [] []).1,
              (processTargets false files fs [] [] []).2.1, []⟩,
            ([DeleteProgress.started files.length] ++ tr') ++
              [.completed (processTargets false files fs [] [] []).1.length
                (processTargets false files fs [] [] []).2.1.length],
            0 + files.length, (processTargets false files fs [] [] []).2.2.1⟩ := by
        rw [batch_delete_blocking, if_neg hsink0, hnoc, hdone]
        rfl
      rw [hde] at h
      rw [hrun] at h
      dsimp only at h
      omega
    | true =>
      rw [hde] at hnoc hdone
      have hfr : ¬ flagRead (some n) (0 + files.length) = true := by
        simp [flagRead]
        omega
      by_cases hcl : n < 0 + files.length + 1 +
          (sortDirsDesc (processTargets true files fs [] [] []).2.2.2).length
      · have hclean := cleanupLoop_cancel n
          (sortDirsDesc (processTargets true files fs [] [] []).2.2.2)
          (processTargets true files fs [] [] []).2.2.1 []
          (0 + files.length + 1) ([DeleteProgress.started files.length] ++ tr')
          (by omega) (by omega)
        have hrun : batch_delete_blocking files true (some n) sinkLive fs =
            ⟨.ok ⟨(processTargets true files fs [] [] []).1,
                (processTargets true files fs [] [] []).2.1,
                (cleanupDirs ((sortDirsDesc
                    (processTargets true files fs [] [] []).2.2.2).take
                    (n - (0 + files.length + 1)))
                  (processTargets true files fs [] [] []).2.2.1 []).2⟩,
              ([DeleteProgress.started files.length] ++ tr') ++ [.cancelled],
              n + 1,
              (cleanupDirs ((sortDirsDesc
                  (processTargets true files fs [] [] []).2.2.2).take
                  (n - (0 + files.length + 1)))
                (processTargets true files fs [] [] []).2.2.1 []).1⟩ := by
          rw [batch_delete_blocking, if_neg hsink0, hnoc, hdone]
          dsimp only
          rw [if_neg hfr, hclean]
          rfl
        rw [hrun]
        refine ⟨getLast_concat_dcancelled _, files.length,
          n - (0 + files.length + 1), le_refl _, fun hlt => absurd hlt (by omega),
          ?_⟩
        rw [List.take_length]
      · push_neg at hcl
        have hclean := cleanupLoop_no_cancel n
          (sortDirsDesc (processTargets true files fs [] [] []).2.2.2)
          (processTargets true files fs [] [] []).2.2.1 []
          (0 + files.length + 1) ([DeleteProgress.started files.length] ++ tr')
          (by omega)
        have hcleann := cleanupLoop_none
          (sortDirsDesc (processTargets true files fs [] [] []).2.2.2)
          (processTargets true files fs [] [] []).2.2.1 []
          (0 + files.length + 1) ([DeleteProgress.started files.length] ++ tr')
        have hrun : batch_delete_blocking files true (some n) sinkLive fs =
            ⟨.ok ⟨(processTargets true files fs [] [] []).1,
                (processTargets true files fs [] [] []).2.1,
                (cleanupDirs (sortDirsDesc
                    (processTargets true files fs [] [] []).2.2.2)
                  (processTargets true files fs [] [] []).2.2.1 []).2⟩,
              ([DeleteProgress.started files.length] ++ tr') ++
                [.completed (processTargets true files fs [] [] []).1.length
                  (processTargets true files fs [] [] []).2.1.length],
              0 + files.length + 1 +
                (sortDirsDesc
                  (processTargets true files fs [] [] []).2.2.2).length,
              (cleanupDirs (sortDirsDesc
                  (processTargets true files fs [] [] []).2.2.2)
                (processTargets true files fs [] [] []).2.2.1 []).1⟩ := by
          rw [batch_delete_blocking, if_neg hsink0, hnoc, hdone]
          dsimp only
          rw [if_neg hfr, hclean, hcleann]
          rfl
        rw [hde] at h
        rw [hrun] at h
        dsimp only at h
        omega

/-- **C2.** Cancellation semantics of the two streaming pipelines, with a live
channel.  The monotone flag is observed set during a run exactly when its
switch-over poll index `n` lies below the run's total poll count.  Search: if
the flag is observed set at any checkpoint (scan loop, pre-matching check, or
the post-parallel check — a flag first seen by a per-item parallel poll is
also seen by the post-parallel check), the run returns `Ok []` and its trace
ends with the terminal `Cancelled` event.  Delete: if the flag is observed set
at a per-target checkpoint or a per-directory cleanup checkpoint (poll index
`n ≠ files.length`, which is the cleanup-entry gate of §4.4 — "if cleanup was
requested and cancellation has not occurred" — and not an emitting
checkpoint), the trace ends with `Cancelled` and the run returns exactly the
partial aggregate accumulated so far: the successes and failures of the first
`k` targets and the directories cleaned by the first `j` sorted candidates
(`j = 0` whenever the per-target loop was interrupted, i.e. `k <
files.length`). -/
theorem claim_C2 :
    (∀ (rc : RegexOracle) (basePath : FPath) (entries : List FsEntry)
        (pat : FName) (pt : PatternType) (cs : Bool) (n : Nat),
      n < (search_files_blocking rc basePath entries pat pt cs (some n)
        sinkLive).polls →
      (search_files_blocking rc basePath entries pat pt cs (some n)
        sinkLive).res = .ok [] ∧
      (search_files_blocking rc basePath entries pat pt cs (some n)
        sinkLive).trace.getLast? = some .cancelled) ∧
    (∀ (files : List FPath) (delEmpty : Bool) (fs : FS) (n : Nat),
      n < (batch_delete_blocking files delEmpty (some n) sinkLive fs).polls →
      n ≠ files.length →
      (batch_delete_blocking files delEmpty (some n) sinkLive
        fs).trace.getLast? = some .cancelled ∧
      ∃ k j, k ≤ files.length ∧ (k < files.length → j = 0) ∧
        (batch_delete_blocking files delEmpty (some n) sinkLive fs).res =
          .ok ⟨(processTargets delEmpty (files.take k) fs [] [] []).1,
            (processTargets delEmpty (files.take k) fs [] [] []).2.1,
            (cleanupDirs ((sortDirsDesc
                (processTargets delEmpty (files.take k) fs [] [] []).2.2.2).take
                j)
              (processTargets delEmpty (files.take k) fs [] [] []).2.2.1
              []).2⟩) :=
  ⟨search_blocking_cancel, delete_blocking_cancel⟩

/-- Witness for C2: a search over one entry cancelled at its very first scan
poll returns `Ok []` with a trace ending in `Cancelled`; a delete of two
targets cancelled before the second target returns the first target's outcome
as its partial aggregate, again ending in `Cancelled`. -/
theorem claim_C2_witness :
    ((search_files_blocking emptyOracle [['r']]
        [⟨[['r'], ['a']], 3, false, true⟩] ['a'] .simple true (some 0)
        sinkLive).res = .ok [] ∧
      (search_files_blocking emptyOracle [['r']]
        [⟨[['r'], ['a']], 3, false, true⟩] ['a'] .simple true (some 0)
        sinkLive).trace.getLast? = some .cancelled) ∧
    ((batch_delete_blocking [[['a']], [['b']]] false (some 1) sinkLive
        ⟨[[['a']], [['b']]], []⟩).trace.getLast? = some .cancelled ∧
      ∃ k j, k ≤ ([[['a']], [['b']]] : List FPath).length ∧
        (k < ([[['a']], [['b']]] : List FPath).length → j = 0) ∧
        (batch_delete_blocking [[['a']], [['b']]] false (some 1) sinkLive
          ⟨[[['a']], [['b']]], []⟩).res =
          .ok ⟨(processTargets false (([[['a']], [['b']]] : List FPath).take k)
              ⟨[[['a']], [['b']]], []⟩ [] [] []).1,
            (processTargets false (([[['a']], [['b']]] : List FPath).take k)
              ⟨[[['a']], [['b']]], []⟩ [] [] []).2.1,
            (cleanupDirs ((sortDirsDesc
                (processTargets false (([[['a']], [['b']]] : List FPath).take k)
                  ⟨[[['a']], [['b']]], []⟩ [] [] []).2.2.2).take j)
              (processTargets false (([[['a']], [['b']]] : List FPath).take k)
                ⟨[[['a']], [['b']]], []⟩ [] [] []).2.2.1 []).2⟩) :=
  ⟨claim_C2.1 emptyOracle [['r']] [⟨[['r'], ['a']], 3, false, true⟩] ['a']
      .simple true 0 (by decide),
    claim_C2.2 [[['a']], [['b']]] false ⟨[[['a']], [['b']]], []⟩ 1 (by decide)
      (by decide)⟩

/-! ### Lemmas: event-trace shape with a live sink (C5) -/

theorem scanLoop_trace (cancelAt : Option Nat) (basePath : FPath)
    (entries acc : List FsEntry) (lastDir : FPath) (p s : Nat)
    (tr : List SearchProgress) :
    (∃ tr2 p2,
        scanLoop cancelAt sinkLive basePath entries acc lastDir p s tr =
          .abort (tr ++ tr2 ++ [.cancelled]) p2 ∧
        ∀ ev ∈ tr2, searchTerminal ev = false) ∨
    (∃ files tr2 p2 s2,
        scanLoop cancelAt sinkLive basePath entries acc lastDir p s tr =
          .done files (tr ++ tr2) p2 s2 ∧
        ∀ ev ∈ tr2, searchTerminal ev = false) := by
  cases cancelAt with
  | none =>
    obtain ⟨tr2, s2, hdone, hterm⟩ :=
      scanLoop_none basePath entries acc lastDir p s tr
    exact Or.inr ⟨_, tr2, _, s2, hdone, hterm⟩
  | some n =>
    by_cases h1 : p + entries.length ≤ n
    · rw [scanLoop_no_cancel n basePath entries acc lastDir p s tr h1]
      obtain ⟨tr2, s2, hdone, hterm⟩ :=
        scanLoop_none basePath entries acc lastDir p s tr
      exact Or.inr ⟨_, tr2, _, s2, hdone, hterm⟩
    · push_neg at h1
      by_cases h2 : p ≤ n
      · obtain ⟨mids, habort, hterm⟩ :=
          scanLoop_cancel n basePath entries acc lastDir p s tr h2 (by omega)
        exact Or.inl ⟨mids, n + 1, habort, hterm⟩
      · push_neg at h2
        cases entries with
        | nil => exact Or.inr ⟨acc, [], p, s, by simp [scanLoop], by simp⟩
        | cons e rest =>
          have hfr : flagRead (some n) p = true := by
            simp [flagRead]
            omega
          refine Or.inl ⟨[], p + 1, ?_, by simp⟩
          rw [show scanLoop (some n) sinkLive basePath (e :: rest) acc lastDir
              p s tr = .abort (tr ++ [.cancelled]) (p + 1) by
            simp [scanLoop, hfr], List.append_nil]

theorem deleteLoop_trace (cancelAt : Option Nat) (delEmpty : Bool)
    (total : Nat) (files : List FPath) (idx : Nat) (fs : FS)
    (succ : List FPath) (failed : List (FPath × String)) (par : List FPath)
    (p s : Nat) (tr : List DeleteProgress) :
    (∃ succ2 failed2 fs2 tr2 p2,
        deleteLoop cancelAt sinkLive delEmpty total files idx fs succ failed
            par p s tr =
          .abort succ2 failed2 fs2 (tr ++ tr2 ++ [.cancelled]) p2 ∧
        ∀ ev ∈ tr2, deleteTerminal ev = false) ∨
    (∃ succ2 failed2 par2 fs2 tr2 p2 s2,
        deleteLoop cancelAt sinkLive delEmpty total files idx fs succ failed
            par p s tr =
          .done succ2 failed2 par2 fs2 (tr ++ tr2) p2 s2 ∧
        ∀ ev ∈ tr2, deleteTerminal ev = false) := by
  cases cancelAt with
  | none =>
    obtain ⟨tr2, hdone, hterm⟩ :=
      deleteLoop_none delEmpty total files idx fs succ failed par p s tr
    exact Or.inr ⟨_, _, _, _, tr2, _, _, hdone, hterm⟩
  | some n =>
    by_cases h1 : p + files.length ≤ n
    · rw [deleteLoop_no_cancel n delEmpty total files idx fs succ failed par
        p s tr h1]
      obtain ⟨tr2, hdone, hterm⟩ :=
        deleteLoop_none delEmpty total files idx fs succ failed par p s tr
      exact Or.inr ⟨_, _, _, _, tr2, _, _, hdone, hterm⟩
    · push_neg at h1
      by_cases h2 : p ≤ n
      · obtain ⟨mids, habort, hterm⟩ :=
          deleteLoop_cancel n delEmpty total files idx fs succ failed par p s
            tr h2 (by omega)
        exact Or.inl ⟨_, _, _, mids, n + 1, habort, hterm⟩
      · push_neg at h2
        cases files with
        | nil =>
          exact Or.inr ⟨succ, failed, par, fs, [], p, s,
            by simp [deleteLoop], by simp⟩
        | cons f rest =>
          have hfr : flagRead (some n) p = true := by
            simp [flagRead]
            omega
          refine Or.inl ⟨succ, failed, fs, [], p + 1, ?_, by simp⟩
          rw [show deleteLoop (some n) sinkLive delEmpty total (f :: rest) idx
              fs succ failed par p s tr =
            .abort succ failed fs (tr ++ [.cancelled]) (p + 1) by
            simp [deleteLoop, hfr], List.append_nil]

theorem cleanupLoop_trace (cancelAt : Option Nat) (ds : List FPath) (fs : FS)
    (del : List FPath) (p : Nat) (tr : List DeleteProgress) :
    (∃ fs2 del2 p2,
        cleanupLoop cancelAt ds fs del p tr =
          .abort fs2 del2 (tr ++ [.cancelled]) p2) ∨
    (∃ fs2 del2 p2,
        cleanupLoop cancelAt ds fs del p tr = .done fs2 del2 tr p2) := by
  cases cancelAt with
  | none =>
    rw [cleanupLoop_none ds fs del p tr]
    exact Or.inr ⟨_, _, _, rfl⟩
  | some n =>
    by_cases h1 : p + ds.length ≤ n
    · rw [cleanupLoop_no_cancel n ds fs del p tr h1, cleanupLoop_none]
      exact Or.inr ⟨_, _, _, rfl⟩
    · push_neg at h1
      by_cases h2 : p ≤ n
      · rw [cleanupLoop_cancel n ds fs del p tr h2 (by omega)]
        exact Or.inl ⟨_, _, _, rfl⟩
      · push_neg at h2
        cases ds with
        | nil => exact Or.inr ⟨fs, del, p, by simp [cleanupLoop]⟩
        | cons d rest =>
          have hfr : flagRead (some n) p = true := by
            simp [flagRead]
            omega
          exact Or.inl ⟨fs, del, p + 1, by simp [cleanupLoop, hfr]⟩

theorem search_blocking_trace (rc : RegexOracle) (basePath : FPath)
    (entries : List FsEntry) (pat : FName) (pt : PatternType) (cs : Bool)
    (cancelAt : Option Nat)
    (hok : (search_files_blocking rc basePath entries pat pt cs cancelAt
      sinkLive).res.isOk = true) :
    ∃ mids t,
      (search_files_blocking rc basePath entries pat pt cs cancelAt
        sinkLive).trace = .started basePath :: (mids ++ [t]) ∧
      searchTerminal t = true ∧ ∀ ev ∈ mids, searchTerminal ev = false := by
  have hsink0 : ¬ sinkLive 0 = false := by simp [sinkLive]
  rcases scanLoop_trace cancelAt basePath entries [] [] 0 1
      [.started basePath] with
    ⟨tr2, p2, habort, hterm⟩ | ⟨files, tr2, p2, s2, hdone, hterm⟩
  · have hrun : search_files_blocking rc basePath entries pat pt cs cancelAt
        sinkLive =
        ⟨.ok [], [SearchProgress.started basePath] ++ tr2 ++ [.cancelled],
          p2⟩ := by
      rw [search_files_blocking, if_neg hsink0, habort]
    rw [hrun]
    exact ⟨tr2, .cancelled, by simp, rfl, hterm⟩
  · by_cases hfr : flagRead cancelAt p2 = true
    · have hrun : search_files_blocking rc basePath entries pat pt cs cancelAt
          sinkLive =
          ⟨.ok [], ([SearchProgress.started basePath] ++ tr2) ++ [.cancelled],
            p2 + 1⟩ := by
        rw [search_files_blocking, if_neg hsink0, hdone]
        dsimp only
        rw [if_pos hfr]
      rw [hrun]
      exact ⟨tr2, .cancelled, by simp, rfl, hterm⟩
    · have hsinks : ¬ sinkLive s2 = false := by simp [sinkLive]
      rcases hcomp : (if pt = PatternType.regex then
          (rc (compileArg pat cs)).map some else .ok none) with err | creg
      · have hrun : search_files_blocking rc basePath entries pat pt cs
            cancelAt sinkLive =
            ⟨.error err, ([SearchProgress.started basePath] ++ tr2) ++
              [.matching files.length], p2 + 1⟩ := by
          rw [search_files_blocking, if_neg hsink0, hdone]
          dsimp only
          rw [if_neg hfr, if_neg hsinks, hcomp]
        rw [hrun] at hok
        exact absurd hok (by simp [Except.isOk, Except.toBool])
      · have hmidterm : ∀ ev ∈ tr2 ++ [SearchProgress.matching files.length],
            searchTerminal ev = false := by
          intro ev hev
          rcases List.mem_append.mp hev with hev | hev
          · exact hterm ev hev
          · rw [List.mem_singleton.mp hev]
            rfl
        by_cases hfin : flagRead cancelAt
            ((parallelPhase cancelAt pat pt cs creg files (p2 + 1)).2) = true
        · have hrun : search_files_blocking rc basePath entries pat pt cs
              cancelAt sinkLive =
              ⟨.ok [], ([SearchProgress.started basePath] ++ tr2) ++
                [.matching files.length, .cancelled],
                (parallelPhase cancelAt pat pt cs creg files (p2 + 1)).2 +
                  1⟩ := by
            rw [search_files_blocking, if_neg hsink0, hdone]
            dsimp only
            rw [if_neg hfr, if_neg hsinks, hcomp]
            dsimp only
            rw [if_pos hfin]
          rw [hrun]
          exact ⟨tr2 ++ [.matching files.length], .cancelled, by simp, rfl,
            hmidterm⟩
        · have hrun : search_files_blocking rc basePath entries pat pt cs
              cancelAt sinkLive =
              ⟨.ok (parallelPhase cancelAt pat pt cs creg files (p2 + 1)).1,
                ([SearchProgress.started basePath] ++ tr2) ++
                [.matching files.length,
                  .completed (parallelPhase cancelAt pat pt cs creg files
                    (p2 + 1)).1.length],
                (parallelPhase cancelAt pat pt cs creg files (p2 + 1)).2 +
                  1⟩ := by
            rw [search_files_blocking, if_neg hsink0, hdone]
            dsimp only
            rw [if_neg hfr, if_neg hsinks, hcomp]
            dsimp only
            rw [if_neg hfin]
          rw [hrun]
          exact ⟨tr2 ++ [.matching files.length],
            .completed (parallelPhase cancelAt pat pt cs creg files
              (p2 + 1)).1.length, by simp, rfl, hmidterm⟩

theorem delete_blocking_trace (files : List FPath) (delEmpty : Bool)
    (cancelAt : Option Nat) (fs : FS) :
    ∃ mids t,
      (batch_delete_blocking files delEmpty cancelAt sinkLive fs).trace =
        .started files.length :: (mids ++ [t]) ∧
      deleteTerminal t = true ∧ ∀ ev ∈ mids, deleteTerminal ev = false := by
  have hsink0 : ¬ sinkLive 0 = false := by simp [sinkLive]
  rcases deleteLoop_trace cancelAt delEmpty files.length files 0 fs [] [] []
      0 1 [.started files.length] with
    ⟨succ2, failed2, fs2, tr2, p2, habort, hterm⟩ |
    ⟨succ2, failed2, par2, fs2, tr2, p2, s2, hdone, hterm⟩
  · have hrun : batch_delete_blocking files delEmpty cancelAt sinkLive fs =
        ⟨.ok ⟨succ2, failed2, []⟩,
          [DeleteProgress.started files.length] ++ tr2 ++ [.cancelled], p2,
          fs2⟩ := by
      rw [batch_delete_blocking, if_neg hsink0, habort]
    rw [hrun]
    exact ⟨tr2, .cancelled, by simp, rfl, hterm⟩
  · cases hde : delEmpty with
    | false =>
      rw [hde] at hdone
      have hrun : batch_delete_blocking files false cancelAt sinkLive fs =
          ⟨.ok ⟨succ2, failed2, []⟩,
            ([DeleteProgress.started files.length] ++ tr2) ++
              [.completed succ2.length failed2.length], p2, fs2⟩ := by
        rw [batch_delete_blocking, if_neg hsink0, hdone]
        rfl
      rw [hrun]
      exact ⟨tr2, .completed succ2.length failed2.length, by simp, rfl, hterm⟩
    | true =>
      rw [hde] at hdone
      by_cases hfr : flagRead cancelAt p2 = true
      · have hrun : batch_delete_blocking files true cancelAt sinkLive fs =
            ⟨.ok ⟨succ2, failed2, []⟩,
              ([DeleteProgress.started files.length] ++ tr2) ++
                [.completed succ2.length failed2.length], p2 + 1, fs2⟩ := by
          rw [batch_delete_blocking, if_neg hsink0, hdone]
          dsimp only
          rw [if_pos hfr]
          rfl
        rw [hrun]
        exact ⟨tr2, .completed succ2.length failed2.length, by simp, rfl,
          hterm⟩
      · rcases cleanupLoop_trace cancelAt (sortDirsDesc par2) fs2 [] (p2 + 1)
            ([DeleteProgress.started files.length] ++ tr2) with
          ⟨fs3, del3, p3, hcl⟩ | ⟨fs3, del3, p3, hcl⟩
        · have hrun : batch_delete_blocking files true cancelAt sinkLive fs =
              ⟨.ok ⟨succ2, failed2, del3⟩,
                ([DeleteProgress.started files.length] ++ tr2) ++
                  [.cancelled], p3, fs3⟩ := by
            rw [batch_delete_blocking, if_neg hsink0, hdone]
            dsimp only
            rw [if_neg hfr, hcl]
            rfl
          rw [hrun]
          exact ⟨tr2, .cancelled, by simp, rfl, hterm⟩
        · have hrun : batch_delete_blocking files true cancelAt sinkLive fs =
              ⟨.ok ⟨succ2, failed2, del3⟩,
                ([DeleteProgress.started files.length] ++ tr2) ++
                  [.completed succ2.length failed2.length], p3, fs3⟩ := by
            rw [batch_delete_blocking, if_neg hsink0, hdone]
            dsimp only
            rw [if_neg hfr, hcl]
            rfl
          rw [hrun]
          exact ⟨tr2, .completed succ2.length failed2.length, by simp, rfl,
            hterm⟩

/-- **C5 (amended).** With a live channel: every run of the streaming search
pipeline that returns `Ok` emits `Started` first and exactly one terminal
event (`Completed` or `Cancelled`) last, with only non-terminal events in
between; every run of the streaming delete pipeline does the same
(unconditionally); but when the operation was pre-cancelled (a tombstone
exists at registration), the command emits the single terminal `Cancelled`
with **no** preceding `Started` — the exception the original claim lacked. -/
theorem claim_C5_amended :
    (∀ (rc : RegexOracle) (basePath : FPath) (entries : List FsEntry)
        (pat : FName) (pt : PatternType) (cs : Bool) (cancelAt : Option Nat),
      (search_files_blocking rc basePath entries pat pt cs cancelAt
        sinkLive).res.isOk = true →
      ∃ mids t,
        (search_files_blocking rc basePath entries pat pt cs cancelAt
          sinkLive).trace = .started basePath :: (mids ++ [t]) ∧
        searchTerminal t = true ∧ ∀ ev ∈ mids, searchTerminal ev = false) ∧
    (∀ (files : List FPath) (delEmpty : Bool) (cancelAt : Option Nat)
        (fs : FS),
      ∃ mids t,
        (batch_delete_blocking files delEmpty cancelAt sinkLive fs).trace =
          .started files.length :: (mids ++ [t]) ∧
        deleteTerminal t = true ∧ ∀ ev ∈ mids, deleteTerminal ev = false) ∧
    (∀ (reg : Registry) (opId : String) (now : Nat) (rc : RegexOracle)
        (basePath : FPath) (entries : List FsEntry) (pat : FName)
        (pt : PatternType) (cs : Bool) (cancelAt : Option Nat) (sink : Sink)
        (t : Nat),
      rlookup reg opId = some (.tombstone t) →
      (search_files_with_progress reg opId now rc basePath entries pat pt cs
        cancelAt sink).1.trace = [.cancelled]) := by
  refine ⟨search_blocking_trace, delete_blocking_trace, ?_⟩
  intro reg opId now rc basePath entries pat pt cs cancelAt sink t h
  simp [search_files_with_progress, try_register, h]

/-- **C5 counterexample.** Registering a pre-cancelled id makes the streaming
search command emit the single event sequence `[Cancelled]`: a terminal event
with no preceding `Started`, refuting "no terminal event is emitted without a
preceding Started". -/
theorem claim_C5_counterexample :
    search_files_with_progress [("op1", OperationEntry.tombstone 5)] "op1" 0
        emptyOracle [['r']] [] ['a'] .simple true none sinkLive =
      (⟨.ok [], [SearchProgress.cancelled], 0⟩, []) ∧
    searchTerminal .cancelled = true := by
  exact ⟨by decide, rfl⟩

/-- Witness for the amended C5 at concrete runs of all three parts. -/
theorem claim_C5_amended_witness :
    (∃ mids t,
      (search_files_blocking emptyOracle [['r']]
        [⟨[['r'], ['a']], 3, false, true⟩] ['a'] .simple true none
        sinkLive).trace = .started [['r']] :: (mids ++ [t]) ∧
      searchTerminal t = true ∧ ∀ ev ∈ mids, searchTerminal ev = false) ∧
    (∃ mids t,
      (batch_delete_blocking [[['a']]] false none sinkLive
        ⟨[[['a']]], []⟩).trace =
        .started ([[['a']]] : List FPath).length :: (mids ++ [t]) ∧
      deleteTerminal t = true ∧ ∀ ev ∈ mids, deleteTerminal ev = false) ∧
    (search_files_with_progress [("op1", OperationEntry.tombstone 5)] "op1" 0
      emptyOracle [['r']] [] ['a'] .simple true none sinkLive).1.trace =
      [.cancelled] :=
  ⟨claim_C5_amended.1 emptyOracle [['r']] [⟨[['r'], ['a']], 3, false, true⟩]
      ['a'] .simple true none (by decide),
    claim_C5_amended.2.1 [[['a']]] false none ⟨[[['a']]], []⟩,
    claim_C5_amended.2.2 [("op1", OperationEntry.tombstone 5)] "op1" 0
      emptyOracle [['r']] [] ['a'] .simple true none sinkLive 5 (by decide)⟩

/-- **C4 (amended).** For the streaming search with a successful
registration: an *empty* (after trimming) pattern is rejected before phase 1
begins — the command returns the fatal "Pattern cannot be empty" error with
no events attempted and no flag poll (no traversal, no per-item work).  An
*invalid regular-expression* pattern, however, is only detected when phase 2
begins: the whole phase-1 traversal runs (polling once per entry plus the
pre-matching check), `Started`/`Scanning`/`Matching` events are attempted,
and the run then returns the compile error with no terminal event. -/
theorem claim_C4_amended :
    (∀ (reg : Registry) (opId : String) (now : Nat) (rc : RegexOracle)
        (basePath : FPath) (entries : List FsEntry) (pat : FName)
        (pt : PatternType) (cs : Bool) (cancelAt : Option Nat) (sink : Sink),
      (∀ t, rlookup reg opId ≠ some (.tombstone t)) →
      (trimName pat).isEmpty = true →
      (search_files_with_progress reg opId now rc basePath entries pat pt cs
        cancelAt sink).1 = ⟨.error "Pattern cannot be empty", [], 0⟩) ∧
    (∀ (rc : RegexOracle) (basePath : FPath) (entries : List FsEntry)
        (pat : FName) (cs : Bool) (err : String),
      rc (compileArg pat cs) = .error err →
      ∃ tr',
        search_files_blocking rc basePath entries pat .regex cs none sinkLive =
          ⟨.error err,
            ([SearchProgress.started basePath] ++ tr') ++
              [.matching (([] : List FsEntry) ++
                entries.filter (fun e => decide (e.path ≠ basePath))).length],
            0 + entries.length + 1⟩ ∧
        ∀ ev ∈ tr', searchTerminal ev = false) := by
  constructor
  · intro reg opId now rc basePath entries pat pt cs cancelAt sink h1 h2
    cases hro : rlookup reg opId with
    | none => simp [search_files_with_progress, try_register, hro, h2]
    | some e =>
      cases e with
      | active b => simp [search_files_with_progress, try_register, hro, h2]
      | tombstone t => exact absurd hro (h1 t)
  · intro rc basePath entries pat cs err h
    have hsink0 : ¬ sinkLive 0 = false := by simp [sinkLive]
    obtain ⟨tr', s', hscan, hterm⟩ :=
      scanLoop_none basePath entries [] [] 0 1 [.started basePath]
    have hcomp : (if PatternType.regex = PatternType.regex then
        (rc (compileArg pat cs)).map some else .ok none) = .error err := by
      rw [if_pos rfl, h]
      rfl
    refine ⟨tr', ?_, hterm⟩
    rw [search_files_blocking, if_neg hsink0, hscan]
    dsimp only
    rw [if_neg (show ¬ flagRead none (0 + entries.length) = true by
        simp [flagRead]),
      if_neg (show ¬ sinkLive s' = false by simp [sinkLive]), hcomp]

/-- **C4 counterexample.** With a malformed regex pattern the streaming search
attempts `Started`, `Scanning` and `Matching` — the full phase-1 traversal of
the single entry happens (two flag polls) — before the fatal error is
returned, refuting "reported before phase 1 ... no traversal, no scanning
events, and no per-item work". -/
theorem claim_C4_counterexample :
    search_files_blocking rejectOracle [['r']]
        [⟨[['r'], ['a']], 3, false, true⟩] ['('] .regex true none sinkLive =
      ⟨.error "regex parse error",
        [.started [['r']], .scanning [['r']] 0, .matching 1], 2⟩ ∧
    SearchProgress.matching 1 ∈
      [SearchProgress.started [['r']], SearchProgress.scanning [['r']] 0,
        SearchProgress.matching 1] := by
  exact ⟨by decide, by decide⟩

/-- Witness for the amended C4: an all-blank pattern is rejected up front
with no events, and a failing regex oracle yields the error only after the
scan of one entry. -/
theorem claim_C4_amended_witness :
    (search_files_with_progress [] "op" 0 emptyOracle [['r']] [] [' ']
      .simple true none sinkLive).1 =
      ⟨.error "Pattern cannot be empty", [], 0⟩ ∧
    ∃ tr',
      search_files_blocking rejectOracle [['r']]
          [⟨[['r'], ['a']], 3, false, true⟩] ['('] .regex true none sinkLive =
        ⟨.error "regex parse error",
          ([SearchProgress.started [['r']]] ++ tr') ++
            [.matching (([] : List FsEntry) ++
              ([⟨[['r'], ['a']], 3, false, true⟩] : List FsEntry).filter
                (fun e => decide (e.path ≠ [['r']]))).length],
          0 + ([⟨[['r'], ['a']], 3, false, true⟩] : List FsEntry).length + 1⟩ ∧
      ∀ ev ∈ tr', searchTerminal ev = false :=
  ⟨claim_C4_amended.1 [] "op" 0 emptyOracle [['r']] [] [' '] .simple true none
      sinkLive (by intro t ht; simp [rlookup] at ht) (by decide),
    claim_C4_amended.2 rejectOracle [['r']] [⟨[['r'], ['a']], 3, false, true⟩]
      ['('] true "regex parse error" rfl⟩

end Toolz
